import Mathlib

/-!
# Pattern analysis of a digit string (`calc.js`)

A shallow embedding of `findRepeatingPatterns` and of the part of
`calculatePiPatterns` that follows the computation of the digit string.

* A JavaScript string is a finite sequence of code units; `length`, `slice` and the
  key equality of `Map` only look at that sequence, so the scan is embedded over
  `List α` for an arbitrary alphabet `α` with decidable equality.
* A `Map` is embedded as an association list in insertion order: `set` on a present key
  overwrites the value in place, `set` on a fresh key appends, and `entries()` lists the
  pairs in that order.
* The digit-string pipeline is embedded over `List Char`.
-/

namespace Pie

section Scan

variable {α : Type} [DecidableEq α]

/-- `str.slice(a, b)` for indices `0 ≤ a ≤ b`: the code units from `a` up to, not
including, `min b str.length`. -/
def slice (str : List α) (a b : Nat) : List α :=
  (str.drop a).take (b - a)

/-- `Map.prototype.get` (with `has` folded in): `none` when the key is absent. -/
def mapGet : List (List α × Nat) → List α → Option Nat
  | [], _ => none
  | (k, v) :: rest, key => if k = key then some v else mapGet rest key

/-- `Map.prototype.set`: a present key keeps its place and takes the new value, a fresh
key is appended. -/
def mapSet : List (List α × Nat) → List α → Nat → List (List α × Nat)
  | [], key, val => [(key, val)]
  | (k, v) :: rest, key, val =>
    if k = key then (k, val) :: rest else (k, v) :: mapSet rest key val

/-- Body of the inner loop (lines 38-43): bump the counter of `substring`, or start it
at `1`. -/
def countSubstring (patterns : List (List α × Nat)) (substring : List α) :
    List (List α × Nat) :=
  match mapGet patterns substring with
  | some count => mapSet patterns substring (count + 1)
  | none => mapSet patterns substring 1

/-- The inner loop (line 37): `start` runs over `0, 1, …` while `start <= length - len`;
there is no iteration when `len > length`. -/
def scanStarts (str : List α) (len : Nat) (patterns : List (List α × Nat)) :
    List (List α × Nat) :=
  (List.range (str.length + 1 - len)).foldl
    (fun m start => countSubstring m (slice str start (start + len))) patterns

/-- The outer loop (line 36): `len` runs over `1, 2, …` while `len <= length / 2`; the
quotient is a real number and `len` an integer, so the last value is `⌊length / 2⌋`. -/
def scanLengths (str : List α) : List (List α × Nat) :=
  (List.range' 1 (str.length / 2)).foldl (fun m len => scanStarts str len m) []

/-- The comparator `(a, b) => b[0].length - a[0].length` is non-positive exactly when
`a` may stay before `b`. -/
def lengthDesc (a b : List α × Nat) : Prop := b.1.length ≤ a.1.length

instance lengthDescTotal : IsTotal (List α × Nat) lengthDesc :=
  ⟨fun a b => Nat.le_total b.1.length a.1.length⟩

instance lengthDescTrans : IsTrans (List α × Nat) lengthDesc :=
  ⟨fun _ _ _ hab hbc => Nat.le_trans hbc hab⟩

instance lengthDescDecidable : DecidableRel (lengthDesc : List α × Nat → List α × Nat → Prop) :=
  fun a b => Nat.decLe b.1.length a.1.length

/-- `findRepeatingPatterns` (lines 32-52): scan, keep the entries with `count > 1`, sort
by descending key length. `Array.prototype.sort` is stable, and for a comparator that is
a total preorder every stable sort returns the same array; insertion sort is one. -/
def findRepeatingPatterns (str : List α) : List (List α × Nat) :=
  List.insertionSort lengthDesc ((scanLengths str).filter (fun e => decide (1 < e.2)))

/-- Iteration order of a `Set` built from an array: every value once, at the place of
its first occurrence. -/
def setOrder : List (List α) → List (List α)
  | [] => []
  | x :: xs => x :: (setOrder xs).filter (fun y => decide (y ≠ x))

/-- Line 66: `[...new Set(repeatingPatterns.map(([pattern]) => pattern))]`. -/
def uniquePatterns (str : List α) : List (List α) :=
  setOrder ((findRepeatingPatterns str).map Prod.fst)

/-- The start offsets `i` with `0 ≤ i ≤ |s| - |p|` at which `s.slice(i, i + |p|)` is `p`. -/
def occurrences (s p : List α) : List Nat :=
  (List.range (s.length + 1 - p.length)).filter
    (fun i => decide (slice s i (i + p.length) = p))

/-- Offset `i` is the first start offset at which `p` occurs in `s`. -/
def IsFirstOffset (s p : List α) (i : Nat) : Prop :=
  slice s i (i + p.length) = p ∧ ∀ k, k < i → slice s k (k + p.length) ≠ p

instance isFirstOffsetDecidable (s p : List α) (i : Nat) : Decidable (IsFirstOffset s p i) := by
  unfold IsFirstOffset
  exact inferInstance

/-- The substrings visited by one run of the inner loop, in visiting order. -/
def substringsOfLength (str : List α) (len : Nat) : List (List α) :=
  (List.range (str.length + 1 - len)).map (fun start => slice str start (start + len))

/-- Every substring visited by the two loops, in visiting order. -/
def scanList (str : List α) : List (List α) :=
  (List.range' 1 (str.length / 2)).flatMap (substringsOfLength str)

/-- Position of the first element equal to `x`, or the length when there is none. -/
def firstIndex {β : Type} [DecidableEq β] (x : β) : List β → Nat
  | [] => 0
  | y :: ys => if y = x then 0 else firstIndex x ys + 1

/-- Closed form of the map after a sequence of keys has been counted: the distinct keys
in order of first appearance, each with its number of appearances. -/
def tally (L : List (List α)) : List (List α × Nat) :=
  (setOrder L).map (fun k => (k, L.count k))

end Scan

section Numbers

/-- The Number values that arise here: a non-negative integer that is exactly
representable in binary64, `Infinity`, or `NaN`. -/
inductive JSNumber where
  | fin (n : Nat)
  | inf
  | nan
  deriving DecidableEq, Repr

/-- The number of halvings that bring `n` below `2^53`, that is `⌊log₂ n⌋ - 52` for
`n ≥ 2^53`; `fuel` bounds the recursion and `fuel = n` is always enough. -/
def excessBits : Nat → Nat → Nat
  | 0, _ => 0
  | fuel + 1, n => if n < 2 ^ 53 then 0 else excessBits fuel (n / 2) + 1

/-- Round a non-negative integer to binary64, to nearest with ties to even: integers
below `2^53` are exact; above, the 53 leading bits are kept and rounded; a rounded value
of `2^1024 = (2^256)^4` or more is `Infinity`. -/
def roundDouble (n : Nat) : JSNumber :=
  if n < 2 ^ 53 then JSNumber.fin n
  else
    let e := excessBits n n
    let q := n / 2 ^ e
    let r := n % 2 ^ e
    let q1 := if 2 ^ e < 2 * r ∨ (2 * r = 2 ^ e ∧ q % 2 = 1) then q + 1 else q
    if (2 ^ 256) ^ 4 ≤ q1 * 2 ^ e then JSNumber.inf else JSNumber.fin (q1 * 2 ^ e)

/-- The `*` of two Numbers of this kind: the exact product, rounded; `Infinity * 0` and
every product with `NaN` are `NaN`. -/
def JSNumber.mul : JSNumber → JSNumber → JSNumber
  | JSNumber.fin a, JSNumber.fin b => roundDouble (a * b)
  | JSNumber.fin a, JSNumber.inf => if a = 0 then JSNumber.nan else JSNumber.inf
  | JSNumber.inf, JSNumber.fin b => if b = 0 then JSNumber.nan else JSNumber.inf
  | JSNumber.inf, JSNumber.inf => JSNumber.inf
  | JSNumber.nan, _ => JSNumber.nan
  | _, JSNumber.nan => JSNumber.nan

/-- The comparison `x > 0`. -/
def JSNumber.isPositive : JSNumber → Bool
  | JSNumber.fin n => decide (0 < n)
  | JSNumber.inf => true
  | JSNumber.nan => false

/-- Value of one decimal digit character. -/
def digitValue (c : Char) : Nat := c.toNat - 48

/-- The decimal numeric value of a string of digits. -/
def decimalValue (p : List Char) : Nat :=
  p.foldl (fun acc c => 10 * acc + digitValue c) 0

/-- `parseFloat` on the strings met here, which hold decimal digits only: the leading
run of digits is read as a decimal numeral and rounded to a Number; with no leading
digit the result is `NaN`. Signs, white space, a fraction, an exponent and `Infinity`
are not part of this embedding. -/
def parseFloat (p : List Char) : JSNumber :=
  match p.takeWhile Char.isDigit with
  | [] => JSNumber.nan
  | d :: ds => roundDouble (decimalValue (d :: ds))

end Numbers

section Pipeline

/-- Worker of `replaceAll`: `skip` counts the characters of the current match that are
still to be dropped. -/
def replaceAllAux (needle : List Char) : Nat → List Char → List Char
  | _, [] => []
  | skip + 1, _ :: rest => replaceAllAux needle skip rest
  | 0, c :: rest =>
    if needle ≠ [] ∧ needle.isPrefixOf (c :: rest) = true then
      replaceAllAux needle (needle.length - 1) rest
    else c :: replaceAllAux needle 0 rest

/-- `hay.replace(new RegExp(needle, 'g'), '')` for a needle of decimal digits, which the
regular expression matches literally: the matches are found from left to right, each
search resuming after the previous match, and are deleted. The empty needle (the pattern
`(?:)`) only has empty matches, so nothing is deleted. -/
def replaceAll (needle hay : List Char) : List Char :=
  replaceAllAux needle 0 hay

/-- The parameter pattern `[pattern]` of the callback on line 76, applied to a string:
array destructuring iterates the string, so `pattern` is its first character (and
`undefined`, which `RegExp` reads as the empty pattern, for the empty string). -/
def firstCharacter (p : List Char) : List Char := p.take 1

/-- One call of the callback on lines 76-78. -/
def removeStep (nonRepeatingRemainder p : List Char) : List Char :=
  replaceAll (firstCharacter p) nonRepeatingRemainder

/-- The values computed by `calculatePiPatterns` (lines 63-88) from the digit string
`piValue` of line 60. -/
structure Analysis where
  repeatingPatterns : List (List Char × Nat)
  uniquePatterns : List (List Char)
  smallestPattern : List Char
  largestPattern : List Char
  nonRepeatingRemainder : List Char
  validPatterns : List (List Char)
  smallest : JSNumber
  largest : JSNumber
  result : JSNumber

/-- The body of `calculatePiPatterns` after line 60, as a function of `piValue`. -/
def calculatePiPatterns (piValue : List Char) : Analysis :=
  let repeatingPatterns := findRepeatingPatterns piValue
  let uniquePatterns := setOrder (repeatingPatterns.map Prod.fst)
  let smallestPattern := uniquePatterns.getLast?.getD []
  let largestPattern := uniquePatterns.head?.getD []
  let removed := uniquePatterns.foldl removeStep piValue
  let nonRepeatingRemainder := removed.dropWhile (fun c => c == '0')
  let validPatterns := uniquePatterns.filter (fun p => (parseFloat p).isPositive)
  let smallest := match validPatterns.getLast? with
    | some p => parseFloat p
    | none => JSNumber.fin 0
  let largest := match validPatterns.head? with
    | some p => parseFloat p
    | none => JSNumber.fin 0
  { repeatingPatterns := repeatingPatterns
    uniquePatterns := uniquePatterns
    smallestPattern := smallestPattern
    largestPattern := largestPattern
    nonRepeatingRemainder := nonRepeatingRemainder
    validPatterns := validPatterns
    smallest := smallest
    largest := largest
    result := JSNumber.mul smallest largest }

/-- The remainder as the specification words it: every pattern of the unique pattern
list, in list order, is deleted as an exact substring at all its left-to-right
non-overlapping occurrences, then the leading zeros are deleted. -/
def specRemainder (s : List Char) : List Char :=
  ((uniquePatterns s).foldl (fun rem p => replaceAll p rem) s).dropWhile (fun c => c == '0')

end Pipeline

section Series

/-- The running values of the loop of `calculatePi` (lines 9-13), in exact arithmetic. -/
structure SeriesState where
  M : ℚ
  L : ℚ
  X : ℚ
  K : ℚ
  S : ℚ

/-- The values before the loop: `M = 1`, `L = 13591409`, `X = 1`, `K = 6`, `S = L`. -/
def seriesInit : SeriesState :=
  { M := 1, L := 13591409, X := 1, K := 6, S := 13591409 }

/-- One pass of the loop body (lines 16-20) for the counter value `i`; `S` is updated
with the new `M`, `L` and `X`, and `K` is advanced last. -/
def seriesStep (st : SeriesState) (i : Nat) : SeriesState :=
  let M := (st.K * st.K * st.K) / ((i : ℚ) + 1)
  let L := st.L + 545140134
  let X := st.X * (-262537412640768000)
  let S := st.S + (M * L) / X
  { M := M, L := L, X := X, K := st.K + 12, S := S }

/-- The sum `S` at the end of the loop `for (let i = 1; i < precision; i++)`, in exact
arithmetic; `calculatePi` returns `C / S` with `C = 426880 * sqrt(10005)`. -/
def calculatePiSum (precision : Nat) : ℚ :=
  ((List.range' 1 (precision - 1)).foldl seriesStep seriesInit).S

/-- The `k`-th term of the Chudnovsky series. -/
def chudnovskyTerm (k : Nat) : ℚ :=
  ((Nat.factorial (6 * k) : ℚ) * (13591409 + 545140134 * (k : ℚ)))
    / ((Nat.factorial (3 * k) : ℚ) * (Nat.factorial k : ℚ) ^ 3
        * (-262537412640768000 : ℚ) ^ k)

/-- The partial sum of the first `p` terms of the Chudnovsky series. -/
def chudnovskyPartialSum (p : Nat) : ℚ :=
  ((List.range p).map chudnovskyTerm).sum

end Series

section ScanLemmas

variable {α : Type} [DecidableEq α]

theorem mem_setOrder (L : List (List α)) (y : List α) : y ∈ setOrder L ↔ y ∈ L := by
  induction L with
  | nil => simp [setOrder]
  | cons x xs ih =>
    by_cases h : y = x
    · simp [setOrder, h]
    · simp [setOrder, h, ih]

theorem nodup_setOrder (L : List (List α)) : (setOrder L).Nodup := by
  induction L with
  | nil => simp [setOrder]
  | cons x xs ih =>
    simp only [setOrder, List.nodup_cons]
    exact ⟨by simp, ih.filter _⟩

theorem setOrder_of_nodup (L : List (List α)) (h : L.Nodup) : setOrder L = L := by
  induction L with
  | nil => rfl
  | cons x xs ih =>
    rw [List.nodup_cons] at h
    simp only [setOrder, ih h.2]
    congr 1
    rw [List.filter_eq_self]
    intro y hy
    simp only [decide_eq_true_eq]
    rintro rfl
    exact h.1 hy

theorem setOrder_append_singleton (L : List (List α)) (x : List α) :
    setOrder (L ++ [x]) = if x ∈ L then setOrder L else setOrder L ++ [x] := by
  induction L with
  | nil => simp [setOrder]
  | cons a as ih =>
    have e : setOrder (a :: as ++ [x])
        = a :: (setOrder (as ++ [x])).filter (fun y => decide (y ≠ a)) := rfl
    have e' : setOrder (a :: as) = a :: (setOrder as).filter (fun y => decide (y ≠ a)) := rfl
    rw [e, e', ih]
    by_cases hx : x ∈ as
    · simp [hx]
    · by_cases hxa : x = a
      · subst hxa
        simp [hx]
      · simp [hx, hxa, List.filter_append]

theorem mapGet_map (ks : List (List α)) (f : List α → Nat) (x : List α) :
    mapGet (ks.map (fun k => (k, f k))) x = if x ∈ ks then some (f x) else none := by
  induction ks with
  | nil => simp [mapGet]
  | cons k ks ih =>
    by_cases h : k = x
    · subst h
      simp [mapGet]
    · have h' : ¬ x = k := fun e => h e.symm
      simp [mapGet, h, h', ih]

theorem mapSet_map_of_not_mem (ks : List (List α)) (f : List α → Nat) (x : List α) (v : Nat)
    (hx : x ∉ ks) :
    mapSet (ks.map (fun k => (k, f k))) x v = ks.map (fun k => (k, f k)) ++ [(x, v)] := by
  induction ks with
  | nil => simp [mapSet]
  | cons k ks ih =>
    rw [List.mem_cons, not_or] at hx
    have h : ¬ k = x := fun e => hx.1 e.symm
    simp [mapSet, h, ih hx.2]

theorem mapSet_map_of_mem (ks : List (List α)) (f g : List α → Nat) (x : List α) (v : Nat)
    (hx : x ∈ ks) (hnd : ks.Nodup) (hgx : g x = v) (hg : ∀ k, k ≠ x → g k = f k) :
    mapSet (ks.map (fun k => (k, f k))) x v = ks.map (fun k => (k, g k)) := by
  induction ks with
  | nil => simp at hx
  | cons k ks ih =>
    rw [List.nodup_cons] at hnd
    by_cases h : k = x
    · subst h
      have : ks.map (fun k => (k, f k)) = ks.map (fun k => (k, g k)) := by
        apply List.map_congr_left
        intro a ha
        have : a ≠ k := by
          rintro rfl
          exact hnd.1 ha
        simp [hg a this]
      simp [mapSet, hgx, this]
    · have hx' : x ∈ ks := by
        rcases List.mem_cons.1 hx with e | e
        · exact absurd e.symm h
        · exact e
      simp [mapSet, h, ih hx' hnd.2, hg k h]

theorem countSubstring_tally (L : List (List α)) (x : List α) :
    countSubstring (tally L) x = tally (L ++ [x]) := by
  unfold countSubstring tally
  rw [mapGet_map, setOrder_append_singleton]
  by_cases hx : x ∈ L
  · have hx' : x ∈ setOrder L := (mem_setOrder L x).2 hx
    simp only [hx, hx', if_true]
    apply mapSet_map_of_mem _ _ _ _ _ hx' (nodup_setOrder L)
    · simp
    · intro k hk
      simp [List.count_append, hk]
  · have hx' : x ∉ setOrder L := fun h => hx ((mem_setOrder L x).1 h)
    simp only [hx, hx', if_false]
    rw [mapSet_map_of_not_mem _ _ _ _ hx']
    simp only [List.map_append, List.map_cons, List.map_nil]
    congr 1
    · apply List.map_congr_left
      intro a ha
      have : a ≠ x := by
        rintro rfl
        exact hx' ha
      simp [List.count_append, this]
    · simp [List.count_append, List.count_eq_zero_of_not_mem hx]

theorem foldl_countSubstring (A L : List (List α)) :
    L.foldl countSubstring (tally A) = tally (A ++ L) := by
  induction L generalizing A with
  | nil => simp
  | cons x xs ih =>
    rw [List.foldl_cons, countSubstring_tally, ih]
    simp

theorem scanStarts_tally (str : List α) (len : Nat) (A : List (List α)) :
    scanStarts str len (tally A) = tally (A ++ substringsOfLength str len) := by
  unfold scanStarts substringsOfLength
  rw [← foldl_countSubstring, List.foldl_map]

theorem foldl_scanStarts (str : List α) (lens : List Nat) (A : List (List α)) :
    lens.foldl (fun m len => scanStarts str len m) (tally A)
      = tally (A ++ lens.flatMap (substringsOfLength str)) := by
  induction lens generalizing A with
  | nil => simp
  | cons l ls ih =>
    rw [List.foldl_cons, scanStarts_tally, ih]
    simp

theorem scanLengths_eq_tally (str : List α) : scanLengths str = tally (scanList str) := by
  have h := foldl_scanStarts str (List.range' 1 (str.length / 2)) []
  simpa [scanLengths, scanList, tally, setOrder] using h

theorem length_slice {β : Type} (str : List β) (start len : Nat)
    (h : start + len ≤ str.length) :
    (slice str start (start + len)).length = len := by
  simp only [slice, List.length_take, List.length_drop]
  omega

theorem length_of_mem_substringsOfLength {β : Type} (str : List β) (len : Nat) (x : List β)
    (hx : x ∈ substringsOfLength str len) : x.length = len := by
  simp only [substringsOfLength, List.mem_map, List.mem_range] at hx
  obtain ⟨start, hs, rfl⟩ := hx
  exact length_slice str start len (by omega)

theorem count_substringsOfLength (s p : List α) :
    (substringsOfLength s p.length).count p = (occurrences s p).length := by
  unfold substringsOfLength occurrences
  rw [List.count_eq_countP, List.countP_map, List.countP_eq_length_filter]
  congr 1
  apply List.filter_congr
  intro i _
  rw [Bool.eq_iff_iff]
  simp [Function.comp]

theorem count_flatMap_substrings (s p : List α) (lens : List Nat) (hnd : lens.Nodup) :
    (lens.flatMap (substringsOfLength s)).count p
      = if p.length ∈ lens then (occurrences s p).length else 0 := by
  induction lens with
  | nil => simp
  | cons l ls ih =>
    rw [List.nodup_cons] at hnd
    rw [List.flatMap_cons, List.count_append, ih hnd.2]
    by_cases h : p.length = l
    · subst h
      simp [hnd.1, count_substringsOfLength]
    · have h0 : (substringsOfLength s l).count p = 0 := by
        apply List.count_eq_zero_of_not_mem
        intro hm
        exact h (length_of_mem_substringsOfLength s l p hm)
      simp [h0, h]

theorem count_scanList (s p : List α) :
    (scanList s).count p
      = if 1 ≤ p.length ∧ p.length ≤ s.length / 2 then (occurrences s p).length else 0 := by
  unfold scanList
  rw [count_flatMap_substrings s p _ (List.nodup_range' 1 (s.length / 2))]
  have : p.length ∈ List.range' 1 (s.length / 2) ↔ 1 ≤ p.length ∧ p.length ≤ s.length / 2 := by
    rw [List.mem_range'_1]
    omega
  simp only [this]

theorem mem_tally (L : List (List α)) (p : List α) (c : Nat) :
    (p, c) ∈ tally L ↔ p ∈ L ∧ c = L.count p := by
  unfold tally
  simp only [List.mem_map, Prod.mk.injEq, mem_setOrder]
  constructor
  · rintro ⟨k, hk, rfl, rfl⟩
    exact ⟨hk, rfl⟩
  · rintro ⟨hp, rfl⟩
    exact ⟨p, hp, rfl, rfl⟩

/-- Membership in the result, in terms of the occurrence list. -/
theorem mem_findRepeatingPatterns (s p : List α) (c : Nat) :
    (p, c) ∈ findRepeatingPatterns s ↔
      1 ≤ p.length ∧ p.length ≤ s.length / 2 ∧ c = (occurrences s p).length ∧ 2 ≤ c := by
  unfold findRepeatingPatterns
  rw [List.mem_insertionSort, List.mem_filter, scanLengths_eq_tally, mem_tally,
    ← List.count_pos_iff, count_scanList]
  simp only [decide_eq_true_eq]
  by_cases h : 1 ≤ p.length ∧ p.length ≤ s.length / 2
  · simp only [h, and_self, if_true, true_and]
    constructor
    · rintro ⟨⟨_, rfl⟩, h2⟩
      exact ⟨rfl, h2⟩
    · rintro ⟨rfl, h2⟩
      exact ⟨⟨by omega, rfl⟩, h2⟩
  · simp only [h, if_false]
    constructor
    · rintro ⟨⟨h0, _⟩, _⟩
      omega
    · rintro ⟨h1, h2, _⟩
      exact absurd ⟨h1, h2⟩ h

theorem firstIndex_append_of_mem {β : Type} [DecidableEq β] (x : β) (A B : List β)
    (h : x ∈ A) : firstIndex x (A ++ B) = firstIndex x A := by
  induction A with
  | nil => simp at h
  | cons a as ih =>
    by_cases ha : a = x
    · simp [firstIndex, ha]
    · have hx : x ∈ as := by
        rcases List.mem_cons.1 h with e | e
        · exact absurd e.symm ha
        · exact e
      simp [firstIndex, ha, ih hx]

theorem firstIndex_append_of_not_mem {β : Type} [DecidableEq β] (x : β) (A B : List β)
    (h : x ∉ A) : firstIndex x (A ++ B) = A.length + firstIndex x B := by
  induction A with
  | nil => simp
  | cons a as ih =>
    rw [List.mem_cons, not_or] at h
    have ha : ¬ a = x := fun e => h.1 e.symm
    simp [firstIndex, ha, ih h.2]
    omega

theorem firstIndex_map_range' {β : Type} [DecidableEq β] (f : Nat → β) (x : β) (n a i : Nat)
    (hai : a ≤ i) (hin : i < a + n) (hfi : f i = x) (hlt : ∀ k, a ≤ k → k < i → f k ≠ x) :
    firstIndex x ((List.range' a n).map f) = i - a := by
  induction n generalizing a with
  | zero => omega
  | succ n ih =>
    rw [List.range'_succ, List.map_cons]
    by_cases hia : i = a
    · subst hia
      simp [firstIndex, hfi]
    · have hfa : ¬ f a = x := hlt a (le_refl a) (by omega)
      have := ih (a + 1) (by omega) (by omega) (fun k hk1 hk2 => hlt k (by omega) hk2)
      simp only [firstIndex, hfa, if_false, this]
      omega

theorem pair_sublist_setOrder (L : List (List α)) (p q : List α)
    (h : firstIndex p L < firstIndex q L) (hq : q ∈ L) : List.Sublist [p, q] (setOrder L) := by
  induction L with
  | nil => simp at hq
  | cons x xs ih =>
    have e : setOrder (x :: xs) = x :: (setOrder xs).filter (fun y => decide (y ≠ x)) := rfl
    rw [e]
    by_cases hxp : x = p
    · subst hxp
      have hqx : q ≠ x := by
        rintro rfl
        simp at h
      have hq' : q ∈ xs := by
        rcases List.mem_cons.1 hq with e | e
        · exact absurd e hqx
        · exact e
      apply List.Sublist.cons₂
      rw [List.singleton_sublist, List.mem_filter]
      exact ⟨(mem_setOrder xs q).2 hq', by simpa using hqx⟩
    · have hxq : x ≠ q := by
        rintro rfl
        simp [firstIndex] at h
      simp only [firstIndex, hxp, hxq, if_false] at h
      have hq' : q ∈ xs := by
        rcases List.mem_cons.1 hq with e | e
        · exact absurd e.symm hxq
        · exact e
      have := (ih (by omega) hq').filter (fun y => decide (y ≠ x))
      have e2 : List.filter (fun y => decide (y ≠ x)) [p, q] = [p, q] := by
        rw [List.filter_eq_self]
        intro y hy
        simp only [List.mem_cons, List.mem_singleton, List.not_mem_nil, or_false] at hy
        rcases hy with rfl | rfl
        · simpa using fun e => hxp e.symm
        · simpa using fun e => hxq e.symm
      rw [e2] at this
      exact this.trans (List.sublist_cons_self _ _)

theorem firstIndex_substringsOfLength (s p : List α) (i : Nat) (h : IsFirstOffset s p i)
    (hfit : i + p.length ≤ s.length) :
    firstIndex p (substringsOfLength s p.length) = i := by
  unfold substringsOfLength
  rw [List.range_eq_range']
  have := firstIndex_map_range' (fun start => slice s start (start + p.length)) p
    (s.length + 1 - p.length) 0 i (Nat.zero_le i) (by omega) h.1 (fun k _ hk => h.2 k hk)
  simpa using this

theorem firstIndex_flatMap_lt (s p q : List α) (lens : List Nat) (hlen : p.length = q.length)
    (hmem : p.length ∈ lens) (hp : p ∈ substringsOfLength s p.length)
    (hq : q ∈ substringsOfLength s p.length)
    (h : firstIndex p (substringsOfLength s p.length)
      < firstIndex q (substringsOfLength s p.length)) :
    firstIndex p (lens.flatMap (substringsOfLength s))
      < firstIndex q (lens.flatMap (substringsOfLength s)) := by
  induction lens with
  | nil => simp at hmem
  | cons l ls ih =>
    rw [List.flatMap_cons]
    by_cases hl : l = p.length
    · subst hl
      rw [firstIndex_append_of_mem p _ _ hp, firstIndex_append_of_mem q _ _ hq]
      exact h
    · have hm : p.length ∈ ls := by
        rcases List.mem_cons.1 hmem with e | e
        · exact absurd e.symm hl
        · exact e
      have hp' : p ∉ substringsOfLength s l := fun hx =>
        hl (length_of_mem_substringsOfLength s l p hx).symm
      have hq' : q ∉ substringsOfLength s l := fun hx =>
        hl ((length_of_mem_substringsOfLength s l q hx).symm.trans hlen.symm)
      rw [firstIndex_append_of_not_mem p _ _ hp', firstIndex_append_of_not_mem q _ _ hq']
      have := ih hm
      omega

theorem fits_of_slice_eq {β : Type} (s p : List β) (i : Nat) (h : slice s i (i + p.length) = p)
    (hp : 1 ≤ p.length) : i + p.length ≤ s.length := by
  have := congrArg List.length h
  simp only [slice, List.length_take, List.length_drop] at this
  omega

theorem mem_substringsOfLength_of_slice {β : Type} (s p : List β) (i : Nat)
    (h : slice s i (i + p.length) = p) (hp : 1 ≤ p.length) :
    p ∈ substringsOfLength s p.length := by
  have hfit := fits_of_slice_eq s p i h hp
  simp only [substringsOfLength, List.mem_map, List.mem_range]
  exact ⟨i, by omega, h⟩

theorem keys_tally (L : List (List α)) : (tally L).map Prod.fst = setOrder L := by
  unfold tally
  rw [List.map_map]
  exact (List.map_congr_left (fun _ _ => rfl)).trans (List.map_id _)

theorem mem_scanLengths_of_mem (s : List α) (e : List α × Nat)
    (h : e ∈ findRepeatingPatterns s) : e ∈ tally (scanList s) ∧ 1 < e.2 := by
  unfold findRepeatingPatterns at h
  rw [List.mem_insertionSort, List.mem_filter, scanLengths_eq_tally] at h
  exact ⟨h.1, by simpa using h.2⟩

/-- The keys of the result are pairwise distinct. -/
theorem nodup_keys (s : List α) : ((findRepeatingPatterns s).map Prod.fst).Nodup := by
  unfold findRepeatingPatterns
  have hperm := (List.perm_insertionSort lengthDesc
    ((scanLengths s).filter (fun e => decide (1 < e.2)))).map Prod.fst
  rw [hperm.nodup_iff, scanLengths_eq_tally]
  have hsub : List.Sublist (((tally (scanList s)).filter (fun e => decide (1 < e.2))).map Prod.fst)
      ((tally (scanList s)).map Prod.fst) := (List.filter_sublist _).map _
  apply List.Nodup.sublist hsub
  rw [keys_tally]
  exact nodup_setOrder _

/-- The result is sorted by non-increasing key length. -/
theorem sorted_findRepeatingPatterns (s : List α) :
    List.Pairwise lengthDesc (findRepeatingPatterns s) :=
  List.sorted_insertionSort lengthDesc _

/-- Stability: among keys of one length, the one first met at the smaller offset comes
first. -/
theorem stable_findRepeatingPatterns (s p q : List α) (c d i j : Nat)
    (hp : (p, c) ∈ findRepeatingPatterns s) (hq : (q, d) ∈ findRepeatingPatterns s)
    (hlen : p.length = q.length) (hi : IsFirstOffset s p i) (hj : IsFirstOffset s q j)
    (hij : i < j) : List.Sublist [(p, c), (q, d)] (findRepeatingPatterns s) := by
  have hp1 := (mem_findRepeatingPatterns s p c).1 hp
  have hq1 := (mem_findRepeatingPatterns s q d).1 hq
  have hpt := mem_scanLengths_of_mem s _ hp
  have hqt := mem_scanLengths_of_mem s _ hq
  have hpc := ((mem_tally _ _ _).1 hpt.1).2
  have hqc := ((mem_tally _ _ _).1 hqt.1).2
  have hqL := ((mem_tally _ _ _).1 hqt.1).1
  have fi := firstIndex_substringsOfLength s p i hi (fits_of_slice_eq s p i hi.1 hp1.1)
  have fj := firstIndex_substringsOfLength s q j hj (fits_of_slice_eq s q j hj.1 hq1.1)
  have mp := mem_substringsOfLength_of_slice s p i hi.1 hp1.1
  have mq := mem_substringsOfLength_of_slice s q j hj.1 hq1.1
  rw [← hlen] at fj mq
  have hlt : firstIndex p (scanList s) < firstIndex q (scanList s) := by
    unfold scanList
    apply firstIndex_flatMap_lt s p q _ hlen _ mp mq (by omega)
    rw [List.mem_range'_1]
    omega
  have h1 := (pair_sublist_setOrder (scanList s) p q hlt hqL).map
    (fun k => (k, (scanList s).count k))
  have h2 := h1.filter (fun e : List α × Nat => decide (1 < e.2))
  have e2 : List.filter (fun e : List α × Nat => decide (1 < e.2))
      (List.map (fun k => (k, (scanList s).count k)) [p, q]) = [(p, c), (q, d)] := by
    simp only [List.map_cons, List.map_nil, ← hpc, ← hqc]
    rw [List.filter_eq_self.2]
    intro e he
    simp only [List.mem_cons, List.mem_singleton, List.not_mem_nil, or_false] at he
    rcases he with rfl | rfl
    · simpa using hpt.2
    · simpa using hqt.2
  rw [e2] at h2
  unfold findRepeatingPatterns
  rw [scanLengths_eq_tally]
  exact List.pair_sublist_insertionSort (r := lengthDesc)
    (show lengthDesc (p, c) (q, d) from le_of_eq hlen.symm) h2

theorem uniquePatterns_eq_keys (s : List α) :
    uniquePatterns s = (findRepeatingPatterns s).map Prod.fst :=
  setOrder_of_nodup _ (nodup_keys s)

theorem mem_keys_iff (s p : List α) :
    p ∈ (findRepeatingPatterns s).map Prod.fst ↔
      1 ≤ p.length ∧ p.length ≤ s.length / 2 ∧ 2 ≤ (occurrences s p).length := by
  rw [List.mem_map]
  constructor
  · rintro ⟨⟨p', c⟩, hm, rfl⟩
    obtain ⟨h1, h2, rfl, h4⟩ := (mem_findRepeatingPatterns s p' c).1 hm
    exact ⟨h1, h2, h4⟩
  · rintro ⟨h1, h2, h3⟩
    exact ⟨(p, (occurrences s p).length),
      (mem_findRepeatingPatterns s p _).2 ⟨h1, h2, rfl, h3⟩, rfl⟩

end ScanLemmas

section PipelineLemmas

theorem slice_slice {β : Type} (s : List β) (i n k m : Nat) (h : k + m ≤ n) :
    slice (slice s i (i + n)) k (k + m) = slice s (i + k) (i + k + m) := by
  simp only [slice, Nat.add_sub_cancel_left, List.drop_take, List.take_take, List.drop_drop]
  congr 1
  omega

theorem slice_singleton_of_mem {β : Type} (p : List β) (c : β) (h : c ∈ p) :
    ∃ k, slice p k (k + 1) = [c] := by
  obtain ⟨k, hk, rfl⟩ := List.mem_iff_getElem.1 h
  refine ⟨k, ?_⟩
  simp only [slice, Nat.add_sub_cancel_left]
  rw [List.drop_eq_getElem_cons hk]
  rfl

theorem mem_occurrences {α : Type} [DecidableEq α] (s p : List α) (i : Nat) :
    i ∈ occurrences s p ↔ i < s.length + 1 - p.length ∧ slice s i (i + p.length) = p := by
  simp [occurrences]

/-- A substring of a pattern occurs at least as often as the pattern. -/
theorem occurrences_length_le {α : Type} [DecidableEq α] (s p q : List α) (k : Nat)
    (hq : 1 ≤ q.length) (h : slice p k (k + q.length) = q) :
    (occurrences s p).length ≤ (occurrences s q).length := by
  have hfit := fits_of_slice_eq p q k h hq
  have hnd : ((occurrences s p).map (fun i => i + k)).Nodup := by
    apply List.Nodup.map
    · intro a b hab
      simpa using hab
    · exact (List.nodup_range _).filter _
  have hsub : (occurrences s p).map (fun i => i + k) ⊆ occurrences s q := by
    intro x hx
    rw [List.mem_map] at hx
    obtain ⟨i, hi, rfl⟩ := hx
    rw [mem_occurrences] at hi ⊢
    refine ⟨by omega, ?_⟩
    have := slice_slice s i p.length k q.length hfit
    rw [hi.2, h] at this
    exact this.symm
  have := (List.subperm_of_subset hnd hsub).length_le
  simpa using this

theorem singleton_mem_keys {α : Type} [DecidableEq α] (s p : List α) (c : α)
    (hp : p ∈ (findRepeatingPatterns s).map Prod.fst) (hc : c ∈ p) :
    [c] ∈ (findRepeatingPatterns s).map Prod.fst := by
  rw [mem_keys_iff] at hp ⊢
  obtain ⟨k, hk⟩ := slice_singleton_of_mem p c hc
  have := occurrences_length_le s p [c] k (by simp) (by simpa using hk)
  simp only [List.length_singleton]
  omega

theorem replaceAllAux_sublist (needle : List Char) (k : Nat) (t : List Char) :
    List.Sublist (replaceAllAux needle k t) t := by
  induction t generalizing k with
  | nil => cases k <;> simp [replaceAllAux]
  | cons c rest ih =>
    cases k with
    | succ k => exact (ih k).trans (List.sublist_cons_self _ _)
    | zero =>
      unfold replaceAllAux
      split
      · exact (ih _).trans (List.sublist_cons_self _ _)
      · exact (ih 0).cons₂ c

theorem replaceAllAux_filter (needle : List Char) (R : Char → Bool)
    (hR : ∀ c ∈ needle, R c = true) (k : Nat) (t : List Char)
    (hk : ∀ c ∈ t.take k, R c = true) :
    (replaceAllAux needle k t).filter (fun c => !R c) = t.filter (fun c => !R c) := by
  induction t generalizing k with
  | nil => cases k <;> simp [replaceAllAux]
  | cons c rest ih =>
    cases k with
    | succ k =>
      have hc : R c = true := hk c (by simp)
      have hrest : ∀ x ∈ rest.take k, R x = true := fun x hx => hk x (by simp [hx])
      simp [replaceAllAux, hc, ih k hrest]
    | zero =>
      unfold replaceAllAux
      split
      · rename_i hmatch
        obtain ⟨hne, hpre⟩ := hmatch
        rw [List.isPrefixOf_iff_prefix] at hpre
        obtain ⟨tl, htl⟩ := hpre
        cases needle with
        | nil => exact absurd rfl hne
        | cons a n =>
          simp only [List.cons_append, List.cons.injEq] at htl
          obtain ⟨rfl, rfl⟩ := htl
          have hc : R a = true := hR a (by simp)
          have hrest : ∀ x ∈ (n ++ tl).take ((a :: n).length - 1), R x = true := by
            intro x hx
            simp only [List.length_cons, Nat.add_sub_cancel, List.take_left'] at hx
            exact hR x (by simp [hx])
          have e := ih _ hrest
          simp only [List.length_cons, Nat.add_sub_cancel] at e
          simp [hc, e]
      · by_cases hc : R c = true
        · simp [hc, ih 0 (by simp)]
        · simp [hc, ih 0 (by simp)]

theorem replaceAll_singleton (c : Char) (t : List Char) :
    replaceAll [c] t = t.filter (fun x => decide (x ≠ c)) := by
  unfold replaceAll
  induction t with
  | nil => simp [replaceAllAux]
  | cons x rest ih =>
    by_cases h : x = c
    · subst h
      simp [replaceAllAux, List.isPrefixOf, ih]
    · have h' : ¬ c = x := fun e => h e.symm
      simp [replaceAllAux, List.isPrefixOf, h, h', ih]

theorem not_mem_foldl_replaceAll (Q : List (List Char)) (t : List Char) (c : Char)
    (h : c ∉ t) : c ∉ Q.foldl (fun rem p => replaceAll p rem) t := by
  induction Q generalizing t with
  | nil => simpa using h
  | cons p ps ih =>
    rw [List.foldl_cons]
    exact ih _ (fun hm => h ((replaceAllAux_sublist p 0 t).subset hm))

theorem not_mem_foldl_of_singleton_mem (Q : List (List Char)) (t : List Char) (c : Char)
    (h : [c] ∈ Q) : c ∉ Q.foldl (fun rem p => replaceAll p rem) t := by
  induction Q generalizing t with
  | nil => simp at h
  | cons p ps ih =>
    rw [List.foldl_cons]
    rcases List.mem_cons.1 h with e | e
    · subst e
      apply not_mem_foldl_replaceAll
      rw [replaceAll_singleton]
      simp
    · exact ih _ e

theorem filter_foldl_replaceAll (R : Char → Bool) (Q : List (List Char)) (t : List Char)
    (h1 : ∀ p ∈ Q, ∀ c ∈ p, R c = true) :
    (Q.foldl (fun rem p => replaceAll p rem) t).filter (fun c => !R c)
      = t.filter (fun c => !R c) := by
  induction Q generalizing t with
  | nil => rfl
  | cons p ps ih =>
    rw [List.foldl_cons, ih _ (fun q hq => h1 q (List.mem_cons_of_mem _ hq))]
    exact replaceAllAux_filter p R (h1 p (List.mem_cons_self _ _)) 0 t (by simp)

/-- Deleting, in any order, patterns made of marked characters, among them every marked
character as a pattern of its own, leaves exactly the unmarked characters. -/
theorem foldl_replaceAll_eq_filter (R : Char → Bool) (Q : List (List Char)) (t : List Char)
    (h1 : ∀ p ∈ Q, ∀ c ∈ p, R c = true) (h2 : ∀ c, R c = true → [c] ∈ Q) :
    Q.foldl (fun rem p => replaceAll p rem) t = t.filter (fun c => !R c) := by
  rw [← filter_foldl_replaceAll R Q t h1]
  symm
  rw [List.filter_eq_self]
  intro c hc
  by_cases hR : R c = true
  · exact absurd hc (not_mem_foldl_of_singleton_mem Q t c (h2 c hR))
  · simpa using hR

theorem foldl_removeStep (P : List (List Char)) (t : List Char) :
    P.foldl removeStep t = (P.map firstCharacter).foldl (fun rem p => replaceAll p rem) t := by
  rw [List.foldl_map]
  rfl

/-- Both the loop of the source and the loop of the specification leave the characters
that are not a repeating pattern by themselves. -/
theorem removal_loops (s : List Char) :
    (uniquePatterns s).foldl removeStep s
        = s.filter (fun c => !decide ([c] ∈ uniquePatterns s)) ∧
    (uniquePatterns s).foldl (fun rem p => replaceAll p rem) s
        = s.filter (fun c => !decide ([c] ∈ uniquePatterns s)) := by
  have hclosed : ∀ p ∈ uniquePatterns s, ∀ c ∈ p, [c] ∈ uniquePatterns s := by
    intro p hp c hc
    rw [uniquePatterns_eq_keys] at hp ⊢
    exact singleton_mem_keys s p c hp hc
  constructor
  · rw [foldl_removeStep]
    apply foldl_replaceAll_eq_filter (fun c => decide ([c] ∈ uniquePatterns s))
    · intro q hq c hc
      rw [List.mem_map] at hq
      obtain ⟨p, hp, rfl⟩ := hq
      simpa using hclosed p hp c (List.mem_of_mem_take hc)
    · intro c hc
      rw [List.mem_map]
      exact ⟨[c], by simpa using hc, rfl⟩
  · apply foldl_replaceAll_eq_filter (fun c => decide ([c] ∈ uniquePatterns s))
    · intro p hp c hc
      simpa using hclosed p hp c hc
    · intro c hc
      simpa using hc

theorem calculatePiPatterns_uniquePatterns (s : List Char) :
    (calculatePiPatterns s).uniquePatterns = uniquePatterns s := rfl

theorem head_dropWhile {β : Type} (f : β → Bool) (l : List β) (c : β) (rest : List β)
    (h : l.dropWhile f = c :: rest) : f c = false := by
  induction l with
  | nil => simp at h
  | cons x xs ih =>
    by_cases hx : f x = true
    · rw [List.dropWhile_cons_of_pos hx] at h
      exact ih h
    · rw [List.dropWhile_cons_of_neg hx] at h
      simp only [List.cons.injEq] at h
      rw [← h.1]
      simpa using hx

theorem two_pow_excessBits_le (fuel n : Nat) (h : 1 ≤ n) : 2 ^ excessBits fuel n ≤ n := by
  induction fuel generalizing n with
  | zero => simpa [excessBits] using h
  | succ f ih =>
    unfold excessBits
    split
    · simpa using h
    · rename_i hn
      have h2 : 1 ≤ n / 2 := by
        have : 2 ≤ n := by
          have : (2 : Nat) ≤ 2 ^ 53 := by norm_num
          omega
        omega
      have := ih (n / 2) h2
      rw [pow_succ]
      omega

theorem excessBits_of_lt (fuel n : Nat) (h : n < 2 ^ 53) : excessBits fuel n = 0 := by
  cases fuel with
  | zero => rfl
  | succ f =>
    unfold excessBits
    rw [if_pos h]

/-- With enough fuel, `excessBits` is the exponent that leaves 53 significant bits. -/
theorem excessBits_bracket (fuel n : Nat) (hfuel : n < 2 ^ (53 + fuel)) (hn : 2 ^ 53 ≤ n) :
    2 ^ (52 + excessBits fuel n) ≤ n ∧ n < 2 ^ (53 + excessBits fuel n) := by
  induction fuel generalizing n with
  | zero => exact absurd hfuel (by simpa using hn)
  | succ f ih =>
    have hstep : excessBits (f + 1) n = excessBits f (n / 2) + 1 := by
      show (if n < 2 ^ 53 then 0 else excessBits f (n / 2) + 1) = excessBits f (n / 2) + 1
      rw [if_neg (Nat.not_lt.2 hn)]
    rw [hstep]
    have hhalf : n / 2 < 2 ^ (53 + f) := by
      have e : 2 ^ (53 + (f + 1)) = 2 * 2 ^ (53 + f) := by
        rw [← Nat.add_assoc, pow_succ, Nat.mul_comm]
      rw [e] at hfuel
      omega
    by_cases hsmall : n / 2 < 2 ^ 53
    · rw [excessBits_of_lt f _ hsmall]
      have e1 : (2 : Nat) ^ (52 + (0 + 1)) = 2 ^ 53 := by norm_num
      have e2 : (2 : Nat) ^ (53 + (0 + 1)) = 2 * 2 ^ 53 := by norm_num
      rw [e1, e2]
      omega
    · have := ih (n / 2) hhalf (Nat.not_lt.1 hsmall)
      have e1 : 2 ^ (52 + (excessBits f (n / 2) + 1)) = 2 * 2 ^ (52 + excessBits f (n / 2)) := by
        rw [← Nat.add_assoc, pow_succ, Nat.mul_comm]
      have e2 : 2 ^ (53 + (excessBits f (n / 2) + 1)) = 2 * 2 ^ (53 + excessBits f (n / 2)) := by
        rw [← Nat.add_assoc, pow_succ, Nat.mul_comm]
      rw [e1, e2]
      omega

theorem excessBits_self_bracket (n : Nat) (hn : 2 ^ 53 ≤ n) :
    2 ^ (52 + excessBits n n) ≤ n ∧ n < 2 ^ (53 + excessBits n n) := by
  apply excessBits_bracket n n _ hn
  have h1 : n < 2 ^ n := Nat.lt_two_pow n
  have h2 : 2 ^ n ≤ 2 ^ (53 + n) := Nat.pow_le_pow_right (by norm_num) (by omega)
  omega

theorem roundDouble_of_lt (n : Nat) (h : n < 2 ^ 53) : roundDouble n = JSNumber.fin n := by
  unfold roundDouble
  rw [if_pos h]

theorem isPositive_of_pos (v B : Nat) (hv : 0 < v) :
    (if B ≤ v then JSNumber.inf else JSNumber.fin v).isPositive = true := by
  split
  · rfl
  · simpa [JSNumber.isPositive] using hv

theorem roundDouble_isPositive (n : Nat) : (roundDouble n).isPositive = decide (0 < n) := by
  unfold roundDouble
  by_cases h : n < 2 ^ 53
  · rw [if_pos h]
    rfl
  · rw [if_neg h]
    have hn : 0 < n := by
      have : (0 : Nat) < 2 ^ 53 := by norm_num
      omega
    have hle := two_pow_excessBits_le n n hn
    have hq : 0 < n / 2 ^ excessBits n n := Nat.div_pos hle (by positivity)
    have hpos : 0 < 2 ^ excessBits n n := by positivity
    have hd : decide (0 < n) = true := by simpa using hn
    rw [hd]
    apply isPositive_of_pos
    apply Nat.mul_pos _ hpos
    split
    · exact Nat.succ_pos _
    · exact hq

theorem digitValue_eq_zero_iff (c : Char) (h : c.isDigit = true) : digitValue c = 0 ↔ c = '0' := by
  constructor
  · intro h0
    have h48 : c.toNat = 48 := by
      simp only [Char.isDigit, Bool.and_eq_true, decide_eq_true_eq] at h
      have h1 : (48 : UInt32) ≤ c.val := h.1
      have h2 : (48 : UInt32).toNat ≤ c.val.toNat := h1
      have h3 : c.toNat = c.val.toNat := rfl
      have h4 : (48 : UInt32).toNat = 48 := rfl
      unfold digitValue at h0
      omega
    rw [← Char.ofNat_toNat c, h48]
  · rintro rfl
    rfl

theorem foldl_decimal_pos (p : List Char) (acc : Nat) :
    0 < p.foldl (fun a c => 10 * a + digitValue c) acc ↔
      0 < acc ∨ ∃ c ∈ p, digitValue c ≠ 0 := by
  induction p generalizing acc with
  | nil => simp
  | cons x xs ih =>
    rw [List.foldl_cons, ih]
    constructor
    · rintro (h | ⟨c, hc, hne⟩)
      · by_cases hx : digitValue x = 0
        · left
          omega
        · right
          exact ⟨x, by simp, hx⟩
      · right
        exact ⟨c, by simp [hc], hne⟩
    · rintro (h | ⟨c, hc, hne⟩)
      · left
        omega
      · rcases List.mem_cons.1 hc with rfl | hc
        · left
          omega
        · right
          exact ⟨c, hc, hne⟩

theorem decimalValue_pos_iff (p : List Char) (hp : ∀ c ∈ p, c.isDigit = true) :
    0 < decimalValue p ↔ p.any (fun c => c != '0') = true := by
  unfold decimalValue
  rw [foldl_decimal_pos, List.any_eq_true]
  simp only [Nat.lt_irrefl, false_or]
  constructor
  · rintro ⟨c, hc, hne⟩
    refine ⟨c, hc, ?_⟩
    have := (digitValue_eq_zero_iff c (hp c hc)).not.1 hne
    simpa using this
  · rintro ⟨c, hc, hne⟩
    refine ⟨c, hc, ?_⟩
    have : c ≠ '0' := by simpa using hne
    exact (digitValue_eq_zero_iff c (hp c hc)).not.2 this

theorem parseFloat_of_digits (p : List Char) (hne : p ≠ []) (hp : ∀ c ∈ p, c.isDigit = true) :
    parseFloat p = roundDouble (decimalValue p) := by
  unfold parseFloat
  have : p.takeWhile Char.isDigit = p := List.takeWhile_eq_self_iff.2 hp
  rw [this]
  cases p with
  | nil => exact absurd rfl hne
  | cons d ds => rfl

theorem mem_slice {β : Type} (s : List β) (a b : Nat) (c : β) (h : c ∈ slice s a b) : c ∈ s :=
  List.mem_of_mem_drop (List.mem_of_mem_take h)

/-- A pattern of the unique pattern list is a non-empty substring of the input. -/
theorem pattern_chars {α : Type} [DecidableEq α] (s p : List α) (hp : p ∈ uniquePatterns s) :
    p ≠ [] ∧ ∀ c ∈ p, c ∈ s := by
  rw [uniquePatterns_eq_keys, mem_keys_iff] at hp
  obtain ⟨h1, _, h3⟩ := hp
  refine ⟨fun e => by simp [e] at h1, ?_⟩
  have hne : occurrences s p ≠ [] := fun e => by simp [e] at h3
  obtain ⟨i, hi⟩ := List.exists_mem_of_ne_nil _ hne
  rw [mem_occurrences] at hi
  intro c hc
  rw [← hi.2] at hc
  exact mem_slice s _ _ c hc

theorem parseFloat_pattern (s p : List Char) (hs : ∀ c ∈ s, c.isDigit = true)
    (hp : p ∈ uniquePatterns s) : parseFloat p = roundDouble (decimalValue p) :=
  parseFloat_of_digits p (pattern_chars s p hp).1
    (fun c hc => hs c ((pattern_chars s p hp).2 c hc))

theorem isPositive_pattern (s p : List Char) (hs : ∀ c ∈ s, c.isDigit = true)
    (hp : p ∈ uniquePatterns s) :
    (parseFloat p).isPositive = decide (0 < decimalValue p) := by
  rw [parseFloat_pattern s p hs hp, roundDouble_isPositive]

theorem isFirstOffset_unique {α : Type} [DecidableEq α] (s p : List α) (i j : Nat)
    (hi : IsFirstOffset s p i) (hj : IsFirstOffset s p j) : i = j := by
  rcases Nat.lt_trichotomy i j with h | h | h
  · exact absurd hi.1 (hj.2 i h)
  · exact h
  · exact absurd hj.1 (hi.2 j h)

theorem mem_tail_of_pair_sublist_cons {β : Type} (q h : β) (t : List β)
    (hs : List.Sublist [q, h] (h :: t)) : h ∈ t := by
  cases hs with
  | cons _ h1 => exact h1.subset (by simp)
  | cons₂ _ h1 => exact h1.subset (by simp)

theorem mem_init_of_pair_sublist_concat {β : Type} (l q : β) (init : List β)
    (hs : List.Sublist [l, q] (init ++ [l])) : l ∈ init := by
  have h := hs.reverse
  simp only [List.reverse_cons, List.reverse_nil, List.nil_append, List.singleton_append,
    List.reverse_append] at h
  have := mem_tail_of_pair_sublist_cons q l init.reverse h
  simpa using this

/-- The first record has a longest key, the one first met earliest among the longest. -/
theorem first_record_extremal {α : Type} [DecidableEq α] (s h : List α) (c : Nat)
    (t : List (List α × Nat)) (hres : findRepeatingPatterns s = (h, c) :: t)
    (q : List α) (hq : q ∈ (findRepeatingPatterns s).map Prod.fst) :
    q.length ≤ h.length ∧
    (q.length = h.length → ∀ i j, IsFirstOffset s h i → IsFirstOffset s q j → i ≤ j) := by
  have hsorted := sorted_findRepeatingPatterns s
  have hnd := nodup_keys s
  rw [hres] at hsorted hnd
  rw [List.pairwise_cons] at hsorted
  simp only [List.map_cons, List.nodup_cons] at hnd
  rw [List.mem_map] at hq
  obtain ⟨⟨q', d⟩, hqd, rfl⟩ := hq
  have hhc : (h, c) ∈ findRepeatingPatterns s := by simp [hres]
  have hcases : (q', d) = (h, c) ∨ (q', d) ∈ t := by
    rw [hres] at hqd
    exact List.mem_cons.1 hqd
  constructor
  · rcases hcases with e | e
    · simp only [Prod.mk.injEq] at e
      simp [e.1]
    · exact hsorted.1 _ e
  · intro hlen i j hi hj
    by_contra hlt
    have hji : j < i := by omega
    have hsub := stable_findRepeatingPatterns s q' h d c j i hqd hhc hlen hj hi hji
    rw [hres] at hsub
    have hmem := mem_tail_of_pair_sublist_cons (q', d) (h, c) t hsub
    exact hnd.1 (List.mem_map.2 ⟨(h, c), hmem, rfl⟩)

/-- The last record has a shortest key, the one first met latest among the shortest. -/
theorem last_record_extremal {α : Type} [DecidableEq α] (s l : List α) (c : Nat)
    (init : List (List α × Nat)) (hres : findRepeatingPatterns s = init ++ [(l, c)])
    (q : List α) (hq : q ∈ (findRepeatingPatterns s).map Prod.fst) :
    l.length ≤ q.length ∧
    (q.length = l.length → ∀ i j, IsFirstOffset s l i → IsFirstOffset s q j → j ≤ i) := by
  have hsorted := sorted_findRepeatingPatterns s
  have hnd := nodup_keys s
  rw [hres] at hsorted hnd
  rw [List.pairwise_append] at hsorted
  rw [List.map_append, List.nodup_append] at hnd
  rw [List.mem_map] at hq
  obtain ⟨⟨q', d⟩, hqd, rfl⟩ := hq
  have hlc : (l, c) ∈ findRepeatingPatterns s := by simp [hres]
  have hcases : (q', d) ∈ init ∨ (q', d) = (l, c) := by
    rw [hres] at hqd
    simpa using hqd
  constructor
  · rcases hcases with e | e
    · exact hsorted.2.2 _ e (l, c) (by simp)
    · simp only [Prod.mk.injEq] at e
      simp [e.1]
  · intro hlen i j hi hj
    by_contra hlt
    have hij : i < j := by omega
    have hsub := stable_findRepeatingPatterns s l q' c d i j hlc hqd hlen.symm hi hj hij
    rw [hres] at hsub
    have hmem := mem_init_of_pair_sublist_concat (l, c) (q', d) init hsub
    have h1 : l ∈ init.map Prod.fst := List.mem_map.2 ⟨(l, c), hmem, rfl⟩
    exact hnd.2.2 h1 (by simp) 

theorem substringsOfLength_one {β : Type} (s : List β) :
    substringsOfLength s 1 = s.map (fun x => [x]) := by
  unfold substringsOfLength
  apply List.ext_getElem
  · simp
  · intro i h1 h2
    have hi : i < s.length := by simpa using h2
    simp only [List.getElem_map, List.getElem_range, slice, Nat.add_sub_cancel_left]
    rw [List.drop_eq_getElem_cons hi]
    rfl

theorem count_map_singleton {α : Type} [DecidableEq α] (s : List α) (c : α) :
    (s.map (fun x => [x])).count [c] = s.count c := by
  induction s with
  | nil => rfl
  | cons x xs ih =>
    rw [List.map_cons, List.count_cons, List.count_cons, ih]
    by_cases hx : x = c
    · simp [hx]
    · simp [hx]

/-- A one-character string occurs as often as its character. -/
theorem occurrences_singleton {α : Type} [DecidableEq α] (s : List α) (c : α) :
    (occurrences s [c]).length = s.count c := by
  have h := count_substringsOfLength s [c]
  rw [← h, List.length_singleton, substringsOfLength_one]
  exact count_map_singleton s c

/-- A character is a repeating pattern by itself exactly when it occurs twice. -/
theorem singleton_mem_uniquePatterns {α : Type} [DecidableEq α] (s : List α) (c : α) :
    [c] ∈ uniquePatterns s ↔ 2 ≤ s.count c := by
  rw [uniquePatterns_eq_keys, mem_keys_iff, occurrences_singleton, List.length_singleton]
  constructor
  · exact fun h => h.2.2
  · intro h
    have := List.count_le_length c s
    exact ⟨le_refl 1, by omega, h⟩

/-- The two removal loops give the same string for every list with the members of the
unique pattern list, whatever its order. -/
theorem removal_any_order (s : List Char) (Q : List (List Char))
    (hQ : ∀ p, p ∈ Q ↔ p ∈ uniquePatterns s) :
    Q.foldl removeStep s = s.filter (fun c => !decide ([c] ∈ uniquePatterns s)) ∧
    Q.foldl (fun rem p => replaceAll p rem) s
        = s.filter (fun c => !decide ([c] ∈ uniquePatterns s)) := by
  have hclosed : ∀ p ∈ Q, ∀ c ∈ p, [c] ∈ uniquePatterns s := by
    intro p hp c hc
    have hp' := (hQ p).1 hp
    rw [uniquePatterns_eq_keys] at hp' ⊢
    exact singleton_mem_keys s p c hp' hc
  constructor
  · rw [foldl_removeStep]
    apply foldl_replaceAll_eq_filter (fun c => decide ([c] ∈ uniquePatterns s))
    · intro q hq c hc
      rw [List.mem_map] at hq
      obtain ⟨p, hp, rfl⟩ := hq
      simpa using hclosed p hp c (List.mem_of_mem_take hc)
    · intro c hc
      rw [List.mem_map]
      exact ⟨[c], (hQ [c]).2 (by simpa using hc), rfl⟩
  · apply foldl_replaceAll_eq_filter (fun c => decide ([c] ∈ uniquePatterns s))
    · intro p hp c hc
      simpa using hclosed p hp c hc
    · intro c hc
      exact (hQ [c]).2 (by simpa using hc)

/-- The string left by the removal loop of the source: the characters that occur once. -/
theorem removed_eq_filter_count (s : List Char) :
    (uniquePatterns s).foldl removeStep s = s.filter (fun c => decide (s.count c = 1)) := by
  rw [(removal_loops s).1]
  apply List.filter_congr
  intro c hc
  have hpos : 0 < s.count c := List.count_pos_iff.2 hc
  rw [Bool.eq_iff_iff]
  simp only [Bool.not_eq_true', decide_eq_false_iff_not, decide_eq_true_eq,
    singleton_mem_uniquePatterns]
  omega

theorem mem_of_mem_dropWhile {β : Type} (f : β → Bool) (l : List β) (c : β)
    (h : c ∈ l.dropWhile f) : c ∈ l :=
  (List.dropWhile_suffix f).subset h

theorem validPatterns_eq (s : List Char) :
    (calculatePiPatterns s).validPatterns
      = (uniquePatterns s).filter (fun p => (parseFloat p).isPositive) := rfl

theorem sorted_uniquePatterns {α : Type} [DecidableEq α] (s : List α) :
    List.Pairwise (fun a b => b.length ≤ a.length) (uniquePatterns s) := by
  rw [uniquePatterns_eq_keys, List.pairwise_map]
  exact sorted_findRepeatingPatterns s

theorem sorted_validPatterns (s : List Char) :
    List.Pairwise (fun a b => b.length ≤ a.length) (calculatePiPatterns s).validPatterns := by
  rw [validPatterns_eq]
  exact (sorted_uniquePatterns s).filter _

theorem nodup_validPatterns (s : List Char) : (calculatePiPatterns s).validPatterns.Nodup := by
  rw [validPatterns_eq]
  exact (nodup_setOrder _).filter _

/-- In a list sorted by non-increasing length the head is a longest element and the last
element a shortest one. -/
theorem ends_of_sorted {β : Type} (L : List (List β)) (f l : List β)
    (hs : List.Pairwise (fun a b => b.length ≤ a.length) L)
    (hf : L.head? = some f) (hl : L.getLast? = some l) (q : List β) (hq : q ∈ L) :
    l.length ≤ q.length ∧ q.length ≤ f.length := by
  constructor
  · obtain ⟨init, rfl⟩ := List.getLast?_eq_some_iff.1 hl
    rw [List.pairwise_append] at hs
    rcases List.mem_append.1 hq with h | h
    · exact hs.2.2 q h l (by simp)
    · simp only [List.mem_singleton] at h
      rw [h]
  · cases L with
    | nil => simp at hq
    | cons a t =>
      simp only [List.head?_cons, Option.some.injEq] at hf
      subst hf
      rw [List.pairwise_cons] at hs
      rcases List.mem_cons.1 hq with h | h
      · rw [h]
      · exact hs.1 q h

/-- The operands of the product when the valid pattern list has head `f` and last
element `l`. -/
theorem operands_of_valid (s f l : List Char) (hs : ∀ c ∈ s, c.isDigit = true)
    (hf : (calculatePiPatterns s).validPatterns.head? = some f)
    (hl : (calculatePiPatterns s).validPatterns.getLast? = some l) :
    (calculatePiPatterns s).smallest = roundDouble (decimalValue l) ∧
    (calculatePiPatterns s).largest = roundDouble (decimalValue f) ∧
    0 < decimalValue l ∧ 0 < decimalValue f := by
  have hsmall : (calculatePiPatterns s).smallest
      = (match (calculatePiPatterns s).validPatterns.getLast? with
        | some p => parseFloat p
        | none => JSNumber.fin 0) := rfl
  have hlarge : (calculatePiPatterns s).largest
      = (match (calculatePiPatterns s).validPatterns.head? with
        | some p => parseFloat p
        | none => JSNumber.fin 0) := rfl
  have hfm : f ∈ (calculatePiPatterns s).validPatterns := List.mem_of_mem_head? hf
  have hlm : l ∈ (calculatePiPatterns s).validPatterns := List.mem_of_mem_getLast? hl
  rw [validPatterns_eq, List.mem_filter] at hfm hlm
  have ef := parseFloat_pattern s f hs hfm.1
  have el := parseFloat_pattern s l hs hlm.1
  have pf : 0 < decimalValue f := by
    have := hfm.2
    rw [isPositive_pattern s f hs hfm.1] at this
    simpa using this
  have pl : 0 < decimalValue l := by
    have := hlm.2
    rw [isPositive_pattern s l hs hlm.1] at this
    simpa using this
  refine ⟨?_, ?_, pl, pf⟩
  · rw [hsmall, hl, ← el]
  · rw [hlarge, hf, ← ef]

theorem mul_isPositive (a b : JSNumber) (ha : a.isPositive = true) (hb : b.isPositive = true) :
    (a.mul b).isPositive = true := by
  cases a with
  | nan => simp [JSNumber.isPositive] at ha
  | inf =>
    cases b with
    | nan => simp [JSNumber.isPositive] at hb
    | inf => rfl
    | fin y =>
      have hy : y ≠ 0 := by
        simp only [JSNumber.isPositive, decide_eq_true_eq] at hb
        omega
      simp [JSNumber.mul, hy, JSNumber.isPositive]
  | fin x =>
    have hx : 0 < x := by simpa [JSNumber.isPositive] using ha
    cases b with
    | nan => simp [JSNumber.isPositive] at hb
    | inf =>
      have hx0 : x ≠ 0 := by omega
      simp [JSNumber.mul, hx0, JSNumber.isPositive]
    | fin y =>
      have hy : 0 < y := by simpa [JSNumber.isPositive] using hb
      show (roundDouble (x * y)).isPositive = true
      rw [roundDouble_isPositive]
      simpa using Nat.mul_pos hx hy

/-- A valid pattern holds a non-zero digit, and that digit is a valid pattern by itself. -/
theorem valid_singleton_of_valid (s p : List Char) (hs : ∀ c ∈ s, c.isDigit = true)
    (hp : p ∈ (calculatePiPatterns s).validPatterns) :
    ∃ c, c ∈ p ∧ c ≠ '0' ∧ [c] ∈ (calculatePiPatterns s).validPatterns := by
  rw [validPatterns_eq, List.mem_filter] at hp
  have hdig : ∀ c ∈ p, c.isDigit = true := fun c hc => hs c ((pattern_chars s p hp.1).2 c hc)
  have hpos := hp.2
  rw [isPositive_pattern s p hs hp.1, decide_eq_true_eq, decimalValue_pos_iff p hdig,
    List.any_eq_true] at hpos
  obtain ⟨c, hc, hne⟩ := hpos
  have hc0 : c ≠ '0' := by simpa using hne
  have hcu : [c] ∈ uniquePatterns s := by
    have := hp.1
    rw [uniquePatterns_eq_keys] at this ⊢
    exact singleton_mem_keys s p c this hc
  refine ⟨c, hc, hc0, ?_⟩
  rw [validPatterns_eq, List.mem_filter]
  refine ⟨hcu, ?_⟩
  rw [isPositive_pattern s [c] hs hcu, decide_eq_true_eq,
    decimalValue_pos_iff [c] (fun x hx => by
      rw [List.mem_singleton] at hx
      rw [hx]
      exact hdig c hc)]
  simpa using hc0

/-- A non-zero digit that occurs twice is a valid pattern by itself. -/
theorem valid_singleton_of_count (s : List Char) (e : Char) (hs : ∀ c ∈ s, c.isDigit = true)
    (he : e ≠ '0') (hcount : 2 ≤ s.count e) :
    [e] ∈ (calculatePiPatterns s).validPatterns := by
  have heu : [e] ∈ uniquePatterns s := (singleton_mem_uniquePatterns s e).2 hcount
  have hes : e ∈ s := List.count_pos_iff.1 (by omega)
  rw [validPatterns_eq, List.mem_filter]
  refine ⟨heu, ?_⟩
  rw [isPositive_pattern s [e] hs heu, decide_eq_true_eq,
    decimalValue_pos_iff [e] (fun x hx => by
      rw [List.mem_singleton] at hx
      rw [hx]
      exact hs e hes)]
  simpa using he

theorem digitValue_le_nine (c : Char) (h : c.isDigit = true) : digitValue c ≤ 9 := by
  simp only [Char.isDigit, Bool.and_eq_true, decide_eq_true_eq] at h
  have h1 : c.val ≤ (57 : UInt32) := h.2
  have h2 : c.val.toNat ≤ (57 : UInt32).toNat := h1
  have h3 : c.toNat = c.val.toNat := rfl
  have h4 : (57 : UInt32).toNat = 57 := rfl
  unfold digitValue
  omega

theorem decimalValue_singleton (c : Char) : decimalValue [c] = digitValue c := by
  simp [decimalValue]

/-- The last valid pattern is a single non-zero digit that occurs twice. -/
theorem last_valid_is_digit (s l : List Char) (hs : ∀ c ∈ s, c.isDigit = true)
    (hl : (calculatePiPatterns s).validPatterns.getLast? = some l) :
    ∃ d, l = [d] ∧ d ≠ '0' ∧ d.isDigit = true ∧ 2 ≤ s.count d := by
  have hlm : l ∈ (calculatePiPatterns s).validPatterns := List.mem_of_mem_getLast? hl
  obtain ⟨c, hc, hc0, hcv⟩ := valid_singleton_of_valid s l hs hlm
  have hne : (calculatePiPatterns s).validPatterns ≠ [] := List.ne_nil_of_mem hlm
  obtain ⟨f, t, hft⟩ := List.exists_cons_of_ne_nil hne
  have hf : (calculatePiPatterns s).validPatterns.head? = some f := by
    rw [hft]
    rfl
  have hle := (ends_of_sorted _ f l (sorted_validPatterns s) hf hl [c] hcv).1
  have hlu : l ∈ uniquePatterns s := by
    rw [validPatterns_eq, List.mem_filter] at hlm
    exact hlm.1
  have hpos : 1 ≤ l.length := List.length_pos.2 (pattern_chars s l hlu).1
  have hlen : l.length = 1 := by
    simp only [List.length_singleton] at hle
    omega
  obtain ⟨d, rfl⟩ := List.length_eq_one.1 hlen
  have hcd : c = d := by simpa using hc
  subst hcd
  refine ⟨c, rfl, hc0, ?_, (singleton_mem_uniquePatterns s c).1 hlu⟩
  exact hs c ((pattern_chars s [c] hlu).2 c (by simp))

theorem exists_record_of_mem_uniquePatterns {α : Type} [DecidableEq α] (s p : List α)
    (hp : p ∈ uniquePatterns s) : ∃ c, (p, c) ∈ findRepeatingPatterns s := by
  rw [uniquePatterns_eq_keys, List.mem_map] at hp
  obtain ⟨⟨p', c⟩, hm, rfl⟩ := hp
  exact ⟨c, hm⟩

/-- Among the one-digit valid patterns the last valid pattern is first met latest. -/
theorem last_valid_latest (s : List Char) (d e : Char) (i j : Nat)
    (hs : ∀ c ∈ s, c.isDigit = true)
    (hl : (calculatePiPatterns s).validPatterns.getLast? = some [d])
    (he : e ≠ '0') (hcount : 2 ≤ s.count e)
    (hi : IsFirstOffset s [d] i) (hj : IsFirstOffset s [e] j) : j ≤ i := by
  by_contra hlt
  have hij : i < j := by omega
  have hdv : [d] ∈ (calculatePiPatterns s).validPatterns := List.mem_of_mem_getLast? hl
  have hev := valid_singleton_of_count s e hs he hcount
  have hnd := nodup_validPatterns s
  obtain ⟨init, hinit⟩ := List.getLast?_eq_some_iff.1 hl
  rw [validPatterns_eq] at hdv hev hinit hnd
  rw [List.mem_filter] at hdv hev
  obtain ⟨c1, h1⟩ := exists_record_of_mem_uniquePatterns s [d] hdv.1
  obtain ⟨c2, h2⟩ := exists_record_of_mem_uniquePatterns s [e] hev.1
  have hsub := (stable_findRepeatingPatterns s [d] [e] c1 c2 i j h1 h2 rfl hi hj hij).map Prod.fst
  rw [← uniquePatterns_eq_keys] at hsub
  have hsub2 := hsub.filter (fun p => (parseFloat p).isPositive)
  have e2 : List.filter (fun p => (parseFloat p).isPositive)
      (List.map Prod.fst [([d], c1), ([e], c2)]) = [[d], [e]] := by
    simp only [List.map_cons, List.map_nil]
    rw [List.filter_eq_self.2]
    intro p hp
    simp only [List.mem_cons, List.mem_singleton, List.not_mem_nil, or_false] at hp
    rcases hp with rfl | rfl
    · exact hdv.2
    · exact hev.2
  rw [e2, hinit] at hsub2
  have hmem := mem_init_of_pair_sublist_concat [d] [e] init hsub2
  rw [hinit, List.nodup_append] at hnd
  exact hnd.2.2 hmem (by simp)

/-- The valid pattern list is empty exactly when no non-zero digit occurs twice. -/
theorem validPatterns_eq_nil_iff (s : List Char) (hs : ∀ c ∈ s, c.isDigit = true) :
    (calculatePiPatterns s).validPatterns = [] ↔ ¬ ∃ e : Char, e ≠ '0' ∧ 2 ≤ s.count e := by
  constructor
  · rintro hnil ⟨e, he, hcount⟩
    have := valid_singleton_of_count s e hs he hcount
    rw [hnil] at this
    simp at this
  · intro hno
    by_contra hne
    obtain ⟨p, t, hpt⟩ := List.exists_cons_of_ne_nil hne
    have hp : p ∈ (calculatePiPatterns s).validPatterns := by
      rw [hpt]
      simp
    obtain ⟨c, _, hc0, hcv⟩ := valid_singleton_of_valid s p hs hp
    rw [validPatterns_eq, List.mem_filter] at hcv
    exact hno ⟨c, hc0, (singleton_mem_uniquePatterns s c).1 hcv.1⟩

/-- The product is `0` exactly when the valid pattern list is empty. -/
theorem result_eq_zero_iff (s : List Char) (hs : ∀ c ∈ s, c.isDigit = true) :
    (calculatePiPatterns s).result = JSNumber.fin 0 ↔
      (calculatePiPatterns s).validPatterns = [] := by
  have hresult : (calculatePiPatterns s).result
      = JSNumber.mul (calculatePiPatterns s).smallest (calculatePiPatterns s).largest := rfl
  constructor
  · intro h0
    by_contra hne
    obtain ⟨f, t, hft⟩ := List.exists_cons_of_ne_nil hne
    have hf : (calculatePiPatterns s).validPatterns.head? = some f := by
      rw [hft]
      rfl
    have hl := List.getLast?_eq_getLast _ hne
    obtain ⟨e1, e2, pl, pf⟩ := operands_of_valid s f _ hs hf hl
    have hpos := mul_isPositive _ _
      (show (calculatePiPatterns s).smallest.isPositive = true by
        rw [e1, roundDouble_isPositive]
        simpa using pl)
      (show (calculatePiPatterns s).largest.isPositive = true by
        rw [e2, roundDouble_isPositive]
        simpa using pf)
    rw [← hresult, h0] at hpos
    simp [JSNumber.isPositive] at hpos
  · intro hnil
    have hsmall : (calculatePiPatterns s).smallest
        = (match (calculatePiPatterns s).validPatterns.getLast? with
          | some p => parseFloat p
          | none => JSNumber.fin 0) := rfl
    have hlarge : (calculatePiPatterns s).largest
        = (match (calculatePiPatterns s).validPatterns.head? with
          | some p => parseFloat p
          | none => JSNumber.fin 0) := rfl
    rw [hresult, hsmall, hlarge, hnil]
    rfl

end PipelineLemmas

section Claims

variable {α : Type} [DecidableEq α]

/-- C1: for every record `(p, c)` returned by `findRepeatingPatterns s`, the count `c` is
the number of start offsets `i` with `0 ≤ i ≤ |s| - |p|` at which `s.slice(i, i + |p|)` is
`p` (overlapping occurrences included), and `c` is at least 2. -/
theorem count_eq_occurrences (s p : List α) (c : Nat) (h : (p, c) ∈ findRepeatingPatterns s) :
    c = (occurrences s p).length ∧ 2 ≤ c :=
  let h' := (mem_findRepeatingPatterns s p c).1 h
  ⟨h'.2.2.1, h'.2.2.2⟩

theorem count_eq_occurrences_witness :
    ("121".toList, 3) ∈ findRepeatingPatterns "1212121".toList ∧
      (3 = (occurrences "1212121".toList "121".toList).length ∧ 2 ≤ 3) :=
  ⟨by decide, count_eq_occurrences "1212121".toList "121".toList 3 (by decide)⟩

/-- C2: the pattern strings returned by `findRepeatingPatterns s` are exactly the strings
`p` with `1 ≤ |p| ≤ ⌊|s| / 2⌋` that occur at two or more start offsets of `s`; in
particular nothing is returned when `|s| < 2`. -/
theorem patterns_characterised (s : List α) :
    (∀ p, p ∈ (findRepeatingPatterns s).map Prod.fst ↔
      1 ≤ p.length ∧ p.length ≤ s.length / 2 ∧ 2 ≤ (occurrences s p).length) ∧
    (s.length < 2 → findRepeatingPatterns s = []) := by
  refine ⟨mem_keys_iff s, fun hs => ?_⟩
  apply List.eq_nil_iff_forall_not_mem.2
  rintro ⟨p, c⟩ hm
  have := (mem_findRepeatingPatterns s p c).1 hm
  omega

theorem patterns_characterised_witness :
    "7".toList.length < 2 ∧ findRepeatingPatterns "7".toList = [] :=
  ⟨by decide, (patterns_characterised "7".toList).2 (by decide)⟩

/-- C3: the list returned by `findRepeatingPatterns s`, and the unique pattern list
derived from it, are sorted by non-increasing pattern length: an earlier pattern is at
least as long as any later one. -/
theorem sorted_by_length (s : List α) :
    List.Pairwise (fun a b => b.1.length ≤ a.1.length) (findRepeatingPatterns s) ∧
    List.Pairwise (fun a b => b.length ≤ a.length) (uniquePatterns s) := by
  refine ⟨sorted_findRepeatingPatterns s, ?_⟩
  rw [uniquePatterns_eq_keys, List.pairwise_map]
  exact sorted_findRepeatingPatterns s

/-- C4: the pattern strings of the records returned by `findRepeatingPatterns s` are
pairwise distinct; the unique pattern list has no duplicate and is the list of first
components of `findRepeatingPatterns s`, element for element and in the same order. -/
theorem patterns_distinct (s : List α) :
    ((findRepeatingPatterns s).map Prod.fst).Nodup ∧
    (uniquePatterns s).Nodup ∧
    uniquePatterns s = (findRepeatingPatterns s).map Prod.fst :=
  ⟨nodup_keys s, nodup_setOrder _, uniquePatterns_eq_keys s⟩

/-- C5: of two records of `findRepeatingPatterns s` whose patterns have the same length,
the one whose pattern first occurs at the smaller start offset of `s` comes earlier in the
returned list. -/
theorem equal_length_scan_order (s p q : List α) (c d i j : Nat)
    (hp : (p, c) ∈ findRepeatingPatterns s) (hq : (q, d) ∈ findRepeatingPatterns s)
    (hlen : p.length = q.length) (hi : IsFirstOffset s p i) (hj : IsFirstOffset s q j)
    (hij : i < j) : List.Sublist [(p, c), (q, d)] (findRepeatingPatterns s) :=
  stable_findRepeatingPatterns s p q c d i j hp hq hlen hi hj hij

theorem equal_length_scan_order_witness :
    (("12".toList, 3) ∈ findRepeatingPatterns "1212121".toList ∧
      ("21".toList, 3) ∈ findRepeatingPatterns "1212121".toList ∧
      "12".toList.length = "21".toList.length ∧
      IsFirstOffset "1212121".toList "12".toList 0 ∧
      IsFirstOffset "1212121".toList "21".toList 1 ∧ 0 < 1) ∧
    List.Sublist [("12".toList, 3), ("21".toList, 3)] (findRepeatingPatterns "1212121".toList) :=
  ⟨by decide, equal_length_scan_order "1212121".toList "12".toList "21".toList 3 3 0 1
    (by decide) (by decide) (by decide) (by decide) (by decide) (by decide)⟩

/-- C6: for a string `s` of decimal digits, the non-repeating remainder computed by
`calculatePiPatterns` equals the string obtained from `s` by deleting, for each pattern of
the unique pattern list in list order, all left-to-right non-overlapping occurrences of
that exact pattern, and then deleting the leading `'0'` characters. -/
theorem remainder_eq_specRemainder (s : List Char) (_hs : ∀ c ∈ s, c.isDigit = true) :
    (calculatePiPatterns s).nonRepeatingRemainder = specRemainder s := by
  have h := removal_loops s
  show ((uniquePatterns s).foldl removeStep s).dropWhile (fun c => c == '0') = specRemainder s
  unfold specRemainder
  rw [h.1, h.2]

theorem remainder_eq_specRemainder_witness :
    (∀ c ∈ "0120123".toList, c.isDigit = true) ∧
    (calculatePiPatterns "0120123".toList).nonRepeatingRemainder
      = specRemainder "0120123".toList :=
  ⟨by decide, remainder_eq_specRemainder "0120123".toList (by decide)⟩

/-- C7: for a string `s` of decimal digits, the non-repeating remainder computed by
`calculatePiPatterns` is the empty string or starts with a character other than `'0'`. -/
theorem remainder_no_leading_zero (s : List Char) (_hs : ∀ c ∈ s, c.isDigit = true) :
    (calculatePiPatterns s).nonRepeatingRemainder = [] ∨
    ∃ c rest, (calculatePiPatterns s).nonRepeatingRemainder = c :: rest ∧ c ≠ '0' := by
  cases h : (calculatePiPatterns s).nonRepeatingRemainder with
  | nil => exact Or.inl rfl
  | cons c rest =>
    refine Or.inr ⟨c, rest, rfl, ?_⟩
    have h' : ((uniquePatterns s).foldl removeStep s).dropWhile (fun c => c == '0')
        = c :: rest := h
    have := head_dropWhile _ _ c rest h'
    simpa using this

theorem remainder_no_leading_zero_witness :
    (∀ c ∈ "0012012".toList, c.isDigit = true) ∧
    ((calculatePiPatterns "0012012".toList).nonRepeatingRemainder = [] ∨
      ∃ c rest, (calculatePiPatterns "0012012".toList).nonRepeatingRemainder = c :: rest ∧
        c ≠ '0') :=
  ⟨by decide, remainder_no_leading_zero "0012012".toList (by decide)⟩

set_option maxRecDepth 100000 in
/-- C8, as stated, fails: for the string of thirty-two `9`s the first valid pattern is
sixteen `9`s, which `parseFloat` rounds to `10000000000000000`, so the result
`90000000000000000` is not the product of the decimal values of the last and the first
valid pattern. -/
theorem product_not_exact :
    (∀ c ∈ List.replicate 32 '9', c.isDigit = true) ∧
    (calculatePiPatterns (List.replicate 32 '9')).result ≠
      JSNumber.fin
        (decimalValue ((calculatePiPatterns (List.replicate 32 '9')).validPatterns.getLast?.getD [])
          * decimalValue
            ((calculatePiPatterns (List.replicate 32 '9')).validPatterns.head?.getD [])) := by
  decide

/-- C8, amended: for a string `s` of decimal digits, the operands are the Numbers nearest
to the decimal values of the last and of the first element of the valid pattern list, the
result is their Number product, and the result is the exact product of the two decimal
values whenever that product is below `2^53`; when the valid pattern list is empty both
operands and the result are `0`. -/
theorem product_of_valid_ends (s : List Char) (hs : ∀ c ∈ s, c.isDigit = true) :
    ((calculatePiPatterns s).validPatterns = [] →
      (calculatePiPatterns s).smallest = JSNumber.fin 0 ∧
      (calculatePiPatterns s).largest = JSNumber.fin 0 ∧
      (calculatePiPatterns s).result = JSNumber.fin 0) ∧
    (∀ f l, (calculatePiPatterns s).validPatterns.head? = some f →
      (calculatePiPatterns s).validPatterns.getLast? = some l →
      (calculatePiPatterns s).smallest = roundDouble (decimalValue l) ∧
      (calculatePiPatterns s).largest = roundDouble (decimalValue f) ∧
      (calculatePiPatterns s).result
        = JSNumber.mul (roundDouble (decimalValue l)) (roundDouble (decimalValue f)) ∧
      (decimalValue l * decimalValue f < 2 ^ 53 →
        (calculatePiPatterns s).result = JSNumber.fin (decimalValue l * decimalValue f))) := by
  have hvalid : (calculatePiPatterns s).validPatterns
      = (uniquePatterns s).filter (fun p => (parseFloat p).isPositive) := rfl
  have hsmall : (calculatePiPatterns s).smallest
      = (match (calculatePiPatterns s).validPatterns.getLast? with
        | some p => parseFloat p
        | none => JSNumber.fin 0) := rfl
  have hlarge : (calculatePiPatterns s).largest
      = (match (calculatePiPatterns s).validPatterns.head? with
        | some p => parseFloat p
        | none => JSNumber.fin 0) := rfl
  have hresult : (calculatePiPatterns s).result
      = JSNumber.mul (calculatePiPatterns s).smallest (calculatePiPatterns s).largest := rfl
  constructor
  · intro hnil
    rw [hresult, hsmall, hlarge, hnil]
    exact ⟨rfl, rfl, rfl⟩
  · intro f l hf hl
    have hfm : f ∈ (calculatePiPatterns s).validPatterns := List.mem_of_mem_head? hf
    have hlm : l ∈ (calculatePiPatterns s).validPatterns := List.mem_of_mem_getLast? hl
    rw [hvalid, List.mem_filter] at hfm hlm
    have ef := parseFloat_pattern s f hs hfm.1
    have el := parseFloat_pattern s l hs hlm.1
    have pf : 0 < decimalValue f := by
      have := hfm.2
      rw [isPositive_pattern s f hs hfm.1] at this
      simpa using this
    have pl : 0 < decimalValue l := by
      have := hlm.2
      rw [isPositive_pattern s l hs hlm.1] at this
      simpa using this
    have e1 : (calculatePiPatterns s).smallest = roundDouble (decimalValue l) := by
      rw [hsmall, hl, ← el]
    have e2 : (calculatePiPatterns s).largest = roundDouble (decimalValue f) := by
      rw [hlarge, hf, ← ef]
    refine ⟨e1, e2, by rw [hresult, e1, e2], fun hlt => ?_⟩
    have hl53 : decimalValue l < 2 ^ 53 :=
      lt_of_le_of_lt (Nat.le_mul_of_pos_right _ pf) hlt
    have hf53 : decimalValue f < 2 ^ 53 :=
      lt_of_le_of_lt (Nat.le_mul_of_pos_left _ pl) hlt
    rw [hresult, e1, e2, roundDouble_of_lt _ hl53, roundDouble_of_lt _ hf53]
    exact roundDouble_of_lt _ hlt

theorem product_of_valid_ends_witness :
    (∀ c ∈ "1212121".toList, c.isDigit = true) ∧
    (calculatePiPatterns "1212121".toList).result = JSNumber.fin 242 :=
  ⟨by decide,
    ((product_of_valid_ends "1212121".toList (by decide)).2 "121".toList "2".toList
      (by decide) (by decide)).2.2.2 (by decide)⟩

/-- C9: for a string `s` of decimal digits, the valid pattern list is the unique pattern
list filtered, in order, to the patterns whose decimal value is greater than zero, which
are the patterns with at least one digit other than `'0'`; `"012"` passes the test, and
`"0"` and `"00"` do not. -/
theorem validPatterns_characterised (s : List Char) (hs : ∀ c ∈ s, c.isDigit = true) :
    (calculatePiPatterns s).validPatterns
      = (calculatePiPatterns s).uniquePatterns.filter (fun p => decide (0 < decimalValue p)) ∧
    (calculatePiPatterns s).validPatterns
      = (calculatePiPatterns s).uniquePatterns.filter (fun p => p.any (fun c => c != '0')) ∧
    (parseFloat "012".toList).isPositive = true ∧
    (parseFloat "0".toList).isPositive = false ∧
    (parseFloat "00".toList).isPositive = false := by
  have hvalid : (calculatePiPatterns s).validPatterns
      = (uniquePatterns s).filter (fun p => (parseFloat p).isPositive) := rfl
  have huniq : (calculatePiPatterns s).uniquePatterns = uniquePatterns s := rfl
  refine ⟨?_, ?_, by decide, by decide, by decide⟩
  · rw [hvalid, huniq]
    apply List.filter_congr
    intro p hp
    exact isPositive_pattern s p hs hp
  · rw [hvalid, huniq]
    apply List.filter_congr
    intro p hp
    rw [isPositive_pattern s p hs hp, Bool.eq_iff_iff, decide_eq_true_eq]
    exact decimalValue_pos_iff p
      (fun c hc => hs c ((pattern_chars s p hp).2 c hc))

theorem validPatterns_characterised_witness :
    (∀ c ∈ "0120120".toList, c.isDigit = true) ∧
    (calculatePiPatterns "0120120".toList).validPatterns
      = (calculatePiPatterns "0120120".toList).uniquePatterns.filter
          (fun p => p.any (fun c => c != '0')) :=
  ⟨by decide, (validPatterns_characterised "0120120".toList (by decide)).2.1⟩

/-- C10: when `findRepeatingPatterns s` is non-empty, the largest pattern is the first
element of the unique pattern list, no pattern of the list is longer, and among the
patterns of its length it has the earliest first occurrence in `s`; the smallest pattern
is the last element, no pattern of the list is shorter, and among the patterns of its
length it has the latest first occurrence in `s`. When there is no repeating pattern both
are the empty string. -/
theorem largest_and_smallest_pattern (s : List Char) :
    (findRepeatingPatterns s = [] →
      (calculatePiPatterns s).largestPattern = [] ∧
      (calculatePiPatterns s).smallestPattern = []) ∧
    (findRepeatingPatterns s ≠ [] →
      (calculatePiPatterns s).uniquePatterns.head? = some (calculatePiPatterns s).largestPattern ∧
      (calculatePiPatterns s).uniquePatterns.getLast?
        = some (calculatePiPatterns s).smallestPattern ∧
      ∀ q ∈ (calculatePiPatterns s).uniquePatterns,
        q.length ≤ (calculatePiPatterns s).largestPattern.length ∧
        (calculatePiPatterns s).smallestPattern.length ≤ q.length ∧
        (q.length = (calculatePiPatterns s).largestPattern.length →
          ∀ i j, IsFirstOffset s (calculatePiPatterns s).largestPattern i →
            IsFirstOffset s q j → i ≤ j) ∧
        (q.length = (calculatePiPatterns s).smallestPattern.length →
          ∀ i j, IsFirstOffset s (calculatePiPatterns s).smallestPattern i →
            IsFirstOffset s q j → j ≤ i)) := by
  have huniq : (calculatePiPatterns s).uniquePatterns = uniquePatterns s := rfl
  have hlarge : (calculatePiPatterns s).largestPattern
      = (uniquePatterns s).head?.getD [] := rfl
  have hsmall : (calculatePiPatterns s).smallestPattern
      = (uniquePatterns s).getLast?.getD [] := rfl
  rw [huniq, hlarge, hsmall, uniquePatterns_eq_keys]
  constructor
  · intro hnil
    rw [hnil]
    exact ⟨rfl, rfl⟩
  · intro hne
    obtain ⟨⟨h, c⟩, t, hht⟩ := List.exists_cons_of_ne_nil hne
    have hlast := (List.dropLast_append_getLast hne).symm
    generalize (findRepeatingPatterns s).dropLast = init at hlast
    generalize (findRepeatingPatterns s).getLast hne = lc at hlast
    obtain ⟨l, c'⟩ := lc
    have e1 : ((findRepeatingPatterns s).map Prod.fst).head? = some h := by
      rw [hht]
      rfl
    have e2 : ((findRepeatingPatterns s).map Prod.fst).getLast? = some l := by
      rw [hlast]
      simp
    rw [e1, e2]
    refine ⟨rfl, rfl, fun q hq => ?_⟩
    have hf := first_record_extremal s h c t hht q hq
    have hl := last_record_extremal s l c' init hlast q hq
    exact ⟨hf.1, hl.1, hf.2, hl.2⟩

theorem largest_and_smallest_pattern_witness :
    findRepeatingPatterns "1212121".toList ≠ [] ∧
    (calculatePiPatterns "1212121".toList).uniquePatterns.head?
      = some (calculatePiPatterns "1212121".toList).largestPattern :=
  ⟨by decide, ((largest_and_smallest_pattern "1212121".toList).2 (by decide)).1⟩

/-- C12, as stated, fails: on `"1212121"` the scan does not give `"21"` the count 2 (nor
`"121"` the count 2); both occur at three start offsets. -/
theorem scan_counts_not_as_stated :
    ¬ (mapGet (scanLengths "1212121".toList) "1".toList = some 4 ∧
      mapGet (scanLengths "1212121".toList) "2".toList = some 3 ∧
      mapGet (scanLengths "1212121".toList) "12".toList = some 3 ∧
      mapGet (scanLengths "1212121".toList) "21".toList = some 2 ∧
      mapGet (scanLengths "1212121".toList) "121".toList = some 2 ∧
      mapGet (scanLengths "1212121".toList) "212".toList = some 2) := by
  decide

/-- C12, amended: on `"1212121"` the scan of `findRepeatingPatterns` gives `"1"` the count
4, `"2"` the count 3, `"12"` the count 3, `"21"` the count 3, `"121"` the count 3 and
`"212"` the count 2, and these are the records returned. -/
theorem scan_counts_example :
    mapGet (scanLengths "1212121".toList) "1".toList = some 4 ∧
    mapGet (scanLengths "1212121".toList) "2".toList = some 3 ∧
    mapGet (scanLengths "1212121".toList) "12".toList = some 3 ∧
    mapGet (scanLengths "1212121".toList) "21".toList = some 3 ∧
    mapGet (scanLengths "1212121".toList) "121".toList = some 3 ∧
    mapGet (scanLengths "1212121".toList) "212".toList = some 2 ∧
    occurrences "1212121".toList "21".toList = [1, 3, 5] ∧
    occurrences "1212121".toList "121".toList = [0, 2, 4] ∧
    findRepeatingPatterns "1212121".toList =
      [("121".toList, 3), ("212".toList, 2), ("12".toList, 3), ("21".toList, 3),
       ("1".toList, 4), ("2".toList, 3)] := by
  decide

/-- C13: for the digit string `"1212121"` the unique pattern list is
`["121", "212", "12", "21", "1", "2"]`, the largest pattern is `"121"`, the smallest
pattern is `"2"`, the valid filter excludes nothing, the operands are 2 and 121 and the
product is 242. -/
theorem example_1212121 :
    (calculatePiPatterns "1212121".toList).uniquePatterns
      = ["121".toList, "212".toList, "12".toList, "21".toList, "1".toList, "2".toList] ∧
    (calculatePiPatterns "1212121".toList).largestPattern = "121".toList ∧
    (calculatePiPatterns "1212121".toList).smallestPattern = "2".toList ∧
    (calculatePiPatterns "1212121".toList).validPatterns
      = (calculatePiPatterns "1212121".toList).uniquePatterns ∧
    (calculatePiPatterns "1212121".toList).smallest = JSNumber.fin 2 ∧
    (calculatePiPatterns "1212121".toList).largest = JSNumber.fin 121 ∧
    (calculatePiPatterns "1212121".toList).result = JSNumber.fin (121 * 2) ∧
    (calculatePiPatterns "1212121".toList).result = JSNumber.fin 242 := by
  decide

/-- C14: for the digit string `"000"` there is no valid pattern, the product is 0 and the
remainder after pattern removal and leading-zero stripping is the empty string. -/
theorem example_000 :
    (calculatePiPatterns "000".toList).validPatterns = [] ∧
    (calculatePiPatterns "000".toList).result = JSNumber.fin 0 ∧
    (calculatePiPatterns "000".toList).nonRepeatingRemainder = [] := by
  decide

/-- C16 at `precision = 2`: the loop of `calculatePi` adds `108 * 558731543 / X` where the
second term of the Chudnovsky series is `120 * 558731543 / X`
(`X = -262537412640768000`), so in exact arithmetic the accumulated sum is not the
two-term partial sum; with `precision = 1` the loop does not run and the two agree. -/
theorem calculatePiSum_not_chudnovsky :
    calculatePiSum 1 = chudnovskyPartialSum 1 ∧
    calculatePiSum 2 = 13591409 + 108 * 558731543 / (-262537412640768000) ∧
    chudnovskyPartialSum 2 = 13591409 + 120 * 558731543 / (-262537412640768000) ∧
    calculatePiSum 2 ≠ chudnovskyPartialSum 2 := by
  refine ⟨?_, ?_, ?_, ?_⟩
  · simp [calculatePiSum, seriesInit, List.range', chudnovskyPartialSum, chudnovskyTerm,
      List.range_succ, Nat.factorial]
  · simp [calculatePiSum, seriesStep, seriesInit, List.range']
    norm_num
  · simp [chudnovskyPartialSum, chudnovskyTerm, List.range_succ, Nat.factorial]
    norm_num
  · simp [calculatePiSum, seriesStep, seriesInit, List.range', chudnovskyPartialSum,
      chudnovskyTerm, List.range_succ, Nat.factorial]
    norm_num

/-- C15, as stated, fails: no digit string has a reordering of its unique pattern list
for which the removal loop of lines 75-78, followed by the leading-zero strip, gives a
remainder other than the one computed by `calculatePiPatterns`. -/
theorem no_order_sensitive_input :
    ¬ ∃ s : List Char, (∀ c ∈ s, c.isDigit = true) ∧
      ∃ Q : List (List Char), List.Perm Q (calculatePiPatterns s).uniquePatterns ∧
        (Q.foldl removeStep s).dropWhile (fun c => c == '0')
          ≠ (calculatePiPatterns s).nonRepeatingRemainder := by
  rintro ⟨s, _, Q, hperm, hne⟩
  apply hne
  have h1 := (removal_any_order s Q (fun p => hperm.mem_iff)).1
  have h2 := (removal_loops s).1
  show (Q.foldl removeStep s).dropWhile (fun c => c == '0')
    = ((uniquePatterns s).foldl removeStep s).dropWhile (fun c => c == '0')
  rw [h1, h2]

/-- C15, amended: the remainder-derivation step is order-insensitive. For every digit
string `s` and every reordering `Q` of its unique pattern list, the removal loop of the
source run over `Q` gives the same string as run in list order, and so does the loop that
deletes whole patterns. -/
theorem removal_order_insensitive (s : List Char) (Q : List (List Char))
    (_hs : ∀ c ∈ s, c.isDigit = true)
    (hperm : List.Perm Q (calculatePiPatterns s).uniquePatterns) :
    Q.foldl removeStep s = (calculatePiPatterns s).uniquePatterns.foldl removeStep s ∧
    Q.foldl (fun rem p => replaceAll p rem) s
      = (calculatePiPatterns s).uniquePatterns.foldl (fun rem p => replaceAll p rem) s := by
  have h1 := removal_any_order s Q (fun p => hperm.mem_iff)
  have h2 := removal_loops s
  have hu : (calculatePiPatterns s).uniquePatterns = uniquePatterns s := rfl
  rw [hu, h1.1, h1.2, h2.1, h2.2]
  exact ⟨rfl, rfl⟩

theorem removal_order_insensitive_witness :
    ((∀ c ∈ "0120123".toList, c.isDigit = true) ∧
      List.Perm ["2".toList, "1".toList, "0".toList, "12".toList, "01".toList, "012".toList]
        (calculatePiPatterns "0120123".toList).uniquePatterns) ∧
    ["2".toList, "1".toList, "0".toList, "12".toList, "01".toList, "012".toList].foldl
        removeStep "0120123".toList
      = (calculatePiPatterns "0120123".toList).uniquePatterns.foldl removeStep
          "0120123".toList :=
  ⟨⟨by decide, by decide⟩,
    (removal_order_insensitive "0120123".toList
      ["2".toList, "1".toList, "0".toList, "12".toList, "01".toList, "012".toList]
      (by decide) (by decide)).1⟩

/-- C18: for a string `s` of decimal digits, the non-repeating remainder computed by
`calculatePiPatterns` is the subsequence of the characters of `s` that occur exactly once
in `s`, in their order, with its leading `'0'` characters stripped; a character that
occurs two or more times in `s` does not occur in the remainder. -/
theorem remainder_is_single_digits (s : List Char) (_hs : ∀ c ∈ s, c.isDigit = true) :
    (calculatePiPatterns s).nonRepeatingRemainder
      = (s.filter (fun c => decide (s.count c = 1))).dropWhile (fun c => c == '0') ∧
    ∀ c, 2 ≤ s.count c → c ∉ (calculatePiPatterns s).nonRepeatingRemainder := by
  have h : (calculatePiPatterns s).nonRepeatingRemainder
      = (s.filter (fun c => decide (s.count c = 1))).dropWhile (fun c => c == '0') := by
    show ((uniquePatterns s).foldl removeStep s).dropWhile (fun c => c == '0') = _
    rw [removed_eq_filter_count]
  refine ⟨h, fun c hc hmem => ?_⟩
  rw [h] at hmem
  have := mem_of_mem_dropWhile _ _ c hmem
  rw [List.mem_filter] at this
  have h1 : s.count c = 1 := by simpa using this.2
  omega

theorem remainder_is_single_digits_witness :
    (∀ c ∈ "0120123".toList, c.isDigit = true) ∧
    (calculatePiPatterns "0120123".toList).nonRepeatingRemainder = "3".toList :=
  ⟨by decide, (remainder_is_single_digits "0120123".toList (by decide)).1⟩

/-- C19: the result of `findRepeatingPatterns s` is closed under non-empty contiguous
substrings, with non-decreasing counts: if `(p, c)` is a record and `q` is the non-empty
substring of `p` at offset `k`, then there is a record `(q, c')` with `c ≤ c'`. -/
theorem closed_under_substrings {α : Type} [DecidableEq α] (s p q : List α) (c k : Nat)
    (hp : (p, c) ∈ findRepeatingPatterns s) (hq : q ≠ [])
    (hsub : slice p k (k + q.length) = q) :
    ∃ c', (q, c') ∈ findRepeatingPatterns s ∧ c ≤ c' := by
  have hq1 : 1 ≤ q.length := List.length_pos.2 hq
  obtain ⟨_, h2, h3, h4⟩ := (mem_findRepeatingPatterns s p c).1 hp
  have hle := occurrences_length_le s p q k hq1 hsub
  have hfit := fits_of_slice_eq p q k hsub hq1
  refine ⟨(occurrences s q).length, ?_, by omega⟩
  exact (mem_findRepeatingPatterns s q _).2 ⟨hq1, by omega, rfl, by omega⟩

theorem closed_under_substrings_witness :
    (("212".toList, 2) ∈ findRepeatingPatterns "1212121".toList ∧ "21".toList ≠ [] ∧
      slice "212".toList 0 (0 + "21".toList.length) = "21".toList) ∧
    ∃ c', ("21".toList, c') ∈ findRepeatingPatterns "1212121".toList ∧ 2 ≤ c' :=
  ⟨by decide, closed_under_substrings "1212121".toList "212".toList "21".toList 2 0
    (by decide) (by decide) (by decide)⟩

/-- C11, as stated, fails: for `"012012999"` the smallest operand is 9 while the valid
pattern `"1"` has the value 1, and the largest operand is 12 while the valid pattern
`"99"` has the value 99; neither operand is the value of a valid pattern that is a
numeric minimum, respectively maximum. -/
theorem operands_not_numeric_extremes :
    (∀ c ∈ "012012999".toList, c.isDigit = true) ∧
    (calculatePiPatterns "012012999".toList).validPatterns ≠ [] ∧
    ¬ (∃ m ∈ (calculatePiPatterns "012012999".toList).validPatterns,
        (calculatePiPatterns "012012999".toList).smallest = parseFloat m ∧
        ∀ q ∈ (calculatePiPatterns "012012999".toList).validPatterns,
          decimalValue m ≤ decimalValue q) ∧
    ¬ (∃ m ∈ (calculatePiPatterns "012012999".toList).validPatterns,
        (calculatePiPatterns "012012999".toList).largest = parseFloat m ∧
        ∀ q ∈ (calculatePiPatterns "012012999".toList).validPatterns,
          decimalValue q ≤ decimalValue m) ∧
    (calculatePiPatterns "012012999".toList).smallest = JSNumber.fin 9 ∧
    (calculatePiPatterns "012012999".toList).largest = JSNumber.fin 12 := by
  decide

/-- C11, amended: for a string `s` of decimal digits with a non-empty valid pattern list,
the 'smallest' operand is the Number value of the last element of the valid pattern list,
which is a shortest valid pattern, and the 'largest' operand is the Number value of its
first element, which is a longest valid pattern: the extremes are taken by position in
the length-sorted list, not by numeric value. -/
theorem operands_are_length_extremes (s : List Char) (hs : ∀ c ∈ s, c.isDigit = true)
    (hne : (calculatePiPatterns s).validPatterns ≠ []) :
    ∃ f l, (calculatePiPatterns s).validPatterns.head? = some f ∧
      (calculatePiPatterns s).validPatterns.getLast? = some l ∧
      (calculatePiPatterns s).smallest = roundDouble (decimalValue l) ∧
      (calculatePiPatterns s).largest = roundDouble (decimalValue f) ∧
      ∀ q ∈ (calculatePiPatterns s).validPatterns,
        l.length ≤ q.length ∧ q.length ≤ f.length := by
  obtain ⟨f, t, hft⟩ := List.exists_cons_of_ne_nil hne
  have hf : (calculatePiPatterns s).validPatterns.head? = some f := by
    rw [hft]
    rfl
  have hl := List.getLast?_eq_getLast _ hne
  obtain ⟨e1, e2, _, _⟩ := operands_of_valid s f _ hs hf hl
  exact ⟨f, _, hf, hl, e1, e2,
    fun q hq => ends_of_sorted _ f _ (sorted_validPatterns s) hf hl q hq⟩

theorem operands_are_length_extremes_witness :
    ((∀ c ∈ "012012999".toList, c.isDigit = true) ∧
      (calculatePiPatterns "012012999".toList).validPatterns ≠ []) ∧
    ∃ f l, (calculatePiPatterns "012012999".toList).validPatterns.head? = some f ∧
      (calculatePiPatterns "012012999".toList).validPatterns.getLast? = some l ∧
      (calculatePiPatterns "012012999".toList).smallest = roundDouble (decimalValue l) ∧
      (calculatePiPatterns "012012999".toList).largest = roundDouble (decimalValue f) ∧
      ∀ q ∈ (calculatePiPatterns "012012999".toList).validPatterns,
        l.length ≤ q.length ∧ q.length ≤ f.length :=
  ⟨⟨by decide, by decide⟩,
    operands_are_length_extremes "012012999".toList (by decide) (by decide)⟩

/-- C20: for a string `s` of decimal digits with a non-empty valid pattern list, the
'smallest' operand is the value, between 1 and 9, of a one-character pattern: a non-zero
digit that occurs at least twice in `s`, and among such digits the one whose first
occurrence in `s` is latest. For every digit string the product is 0 exactly when no
non-zero digit occurs twice in `s`. -/
theorem smallest_is_latest_digit (s : List Char) (hs : ∀ c ∈ s, c.isDigit = true) :
    ((calculatePiPatterns s).validPatterns ≠ [] →
      ∃ d : Char, (calculatePiPatterns s).validPatterns.getLast? = some [d] ∧
        d ≠ '0' ∧ d.isDigit = true ∧ 2 ≤ s.count d ∧
        (calculatePiPatterns s).smallest = JSNumber.fin (digitValue d) ∧
        1 ≤ digitValue d ∧ digitValue d ≤ 9 ∧
        ∀ e : Char, e ≠ '0' → 2 ≤ s.count e →
          ∀ i j, IsFirstOffset s [d] i → IsFirstOffset s [e] j → j ≤ i) ∧
    ((calculatePiPatterns s).result = JSNumber.fin 0 ↔
      ¬ ∃ e : Char, e ≠ '0' ∧ 2 ≤ s.count e) := by
  constructor
  · intro hne
    have hl := List.getLast?_eq_getLast _ hne
    obtain ⟨d, hd, hd0, hdig, hcount⟩ := last_valid_is_digit s _ hs hl
    rw [hd] at hl
    obtain ⟨f, t, hft⟩ := List.exists_cons_of_ne_nil hne
    have hf : (calculatePiPatterns s).validPatterns.head? = some f := by
      rw [hft]
      rfl
    obtain ⟨e1, _, _, _⟩ := operands_of_valid s f [d] hs hf hl
    have h9 := digitValue_le_nine d hdig
    have h1 : 1 ≤ digitValue d := by
      have := (digitValue_eq_zero_iff d hdig).not.2 hd0
      omega
    refine ⟨d, hl, hd0, hdig, hcount, ?_, h1, h9, ?_⟩
    · rw [e1, decimalValue_singleton]
      apply roundDouble_of_lt
      have : (9 : Nat) < 2 ^ 53 := by norm_num
      omega
    · intro e he hcount_e i j hi hj
      exact last_valid_latest s d e i j hs hl he hcount_e hi hj
  · rw [result_eq_zero_iff s hs, validPatterns_eq_nil_iff s hs]

theorem smallest_is_latest_digit_witness :
    ((∀ c ∈ "1212121".toList, c.isDigit = true) ∧
      (calculatePiPatterns "1212121".toList).validPatterns ≠ []) ∧
    ∃ d : Char, (calculatePiPatterns "1212121".toList).validPatterns.getLast? = some [d] ∧
      d ≠ '0' ∧ d.isDigit = true ∧ 2 ≤ "1212121".toList.count d ∧
      (calculatePiPatterns "1212121".toList).smallest = JSNumber.fin (digitValue d) ∧
      1 ≤ digitValue d ∧ digitValue d ≤ 9 ∧
      ∀ e : Char, e ≠ '0' → 2 ≤ "1212121".toList.count e →
        ∀ i j, IsFirstOffset "1212121".toList [d] i →
          IsFirstOffset "1212121".toList [e] j → j ≤ i :=
  ⟨⟨by decide, by decide⟩,
    (smallest_is_latest_digit "1212121".toList (by decide)).1 (by decide)⟩

end Claims

end Pie
